import Mathlib

/-!
Verification of the SproutCV skeleton-graph measurement engine.

The definitions below are a shallow embedding of the Python sources
`src/utils/graph_utils.py` and `src/analysis/sprout_detector.py`
(the modules actually imported by the running pipeline via the
`sproutcv.utils.graph_utils` / `sproutcv.analysis` package names).

Modelling conventions:
* a pixel coordinate (numpy `(y, x)` pair) is a `Node := ℤ × ℤ`;
* a skeleton mask is its dimensions plus an on-pixel test;
* a `networkx.Graph` is an insertion-ordered node list plus an
  insertion-ordered edge list; every edge weight the program ever stores
  is `sqrt` of a nonnegative integer (the squared Euclidean distance
  between two integer pixel coordinates), so an edge record stores that
  integer and the real-valued weight is recovered as `Real.sqrt`;
* `ProcessingError` raises (and the `KeyError` that `G[p1]` can raise)
  become an `Except PErr` result.
-/

namespace SproutCV

/-- Pixel coordinate `(y, x)`. -/
abbrev Node : Type := ℤ × ℤ

/-- Squared Euclidean distance between two integer pixel coordinates,
as a natural number. -/
def sqDistZ (u v : Node) : ℕ :=
  ((u.1 - v.1) ^ 2 + (u.2 - v.2) ^ 2).toNat

/-- The 8-connected neighbourhood offsets, in the order of
`GraphConfig.NEIGHBORS` in `src/config.py`. -/
def NEIGHBORS : List (ℤ × ℤ) :=
  [(-1, 0), (1, 0), (0, -1), (0, 1), (-1, -1), (-1, 1), (1, -1), (1, 1)]

/-- A binary skeleton image: height, width and the `skeleton[y, x] > 0` test. -/
structure Mask where
  H : ℕ
  W : ℕ
  pix : ℕ → ℕ → Bool

/-- The on-pixels of a mask in row-major order, exactly the order produced by
`np.column_stack(np.where(skeleton > 0))`. -/
def Mask.points (m : Mask) : List Node :=
  (List.range m.H).flatMap (fun y =>
    (List.range m.W).filterMap (fun x =>
      if m.pix y x then some ((y : ℤ), (x : ℤ)) else none))

/-- Errors of the engine.  `emptySkeleton` models the `ProcessingError`s
raised by `build_graph_from_skeleton`, `graphEmpty` the one raised by
`find_farthest_nodes`, `invalidPath` the one raised by `reconnect_path`,
and `missingNode` the `KeyError` that `G[p1]` raises on an absent node. -/
inductive PErr where
  | emptySkeleton : PErr
  | graphEmpty : PErr
  | invalidPath : PErr
  | missingNode : PErr
deriving DecidableEq, Repr

/-- A `networkx.Graph` as the program uses it: node list in insertion order
and undirected edges `(u, v, squared distance)` in insertion order. -/
structure Graph where
  nodes : List Node
  edges : List (Node × Node × ℕ)
deriving DecidableEq, Repr

/-- Whether an edge record joins the unordered pair `(u, v)`. -/
def edgeFor (u v : Node) (e : Node × Node × ℕ) : Bool :=
  decide ((e.1 = u ∧ e.2.1 = v) ∨ (e.1 = v ∧ e.2.1 = u))

/-- `G.add_node(v)` (a no-op when the node is present). -/
def addNode (G : Graph) (v : Node) : Graph :=
  if v ∈ G.nodes then G else ⟨G.nodes ++ [v], G.edges⟩

/-- `v in G[u]`: the graph has an edge between `u` and `v`. -/
def hasEdge (G : Graph) (u v : Node) : Bool :=
  G.edges.any (edgeFor u v)

/-- The stored squared weight of the edge between `u` and `v`, if any
(`G[u][v]['weight']` is `Real.sqrt` of this). -/
def findW (G : Graph) (u v : Node) : Option ℕ :=
  (G.edges.find? (edgeFor u v)).map (fun e => e.2.2)

/-- `findW` with default `0`. -/
def getSqD (G : Graph) (u v : Node) : ℕ :=
  (findW G u v).getD 0

/-- `G.add_edge(u, v, weight=sqrt sq)`.  Registers both endpoints as nodes.
`networkx` overwrites the weight of an existing edge; in this program an
edge is only ever re-added with the same weight (the squared distance of
its endpoints), so keeping the existing record is extensionally faithful. -/
def addEdge (G : Graph) (u v : Node) (sq : ℕ) : Graph :=
  let G1 := addNode (addNode G u) v
  if hasEdge G1 u v then G1 else ⟨G1.nodes, G1.edges ++ [(u, v, sq)]⟩

/-- 8-adjacency of two distinct pixels: both coordinate differences
are at most 1 in absolute value. -/
def adj8 (u v : Node) : Prop :=
  (u.1 - v.1).natAbs ≤ 1 ∧ (u.2 - v.2).natAbs ≤ 1

instance (u v : Node) : Decidable (adj8 u v) :=
  inferInstanceAs (Decidable ((u.1 - v.1).natAbs ≤ 1 ∧ (u.2 - v.2).natAbs ≤ 1))

/-- The bounds-and-on-pixel test guarding an edge insertion in
`build_graph_from_skeleton`: `0 <= ny < shape[0] and 0 <= nx_ < shape[1]
and skeleton[ny, nx_] > 0`. -/
def inOn (m : Mask) (q : Node) : Prop :=
  0 ≤ q.1 ∧ q.1 < (m.H : ℤ) ∧ 0 ≤ q.2 ∧ q.2 < (m.W : ℤ) ∧
    m.pix q.1.toNat q.2.toNat = true

instance (m : Mask) (q : Node) : Decidable (inOn m q) :=
  inferInstanceAs (Decidable (0 ≤ q.1 ∧ q.1 < (m.H : ℤ) ∧ 0 ≤ q.2 ∧ q.2 < (m.W : ℤ) ∧
    m.pix q.1.toNat q.2.toNat = true))

/-- One source point's neighbour scan in `build_graph_from_skeleton`:
for each of the 8 offsets, if the neighbour is in bounds and an on-pixel,
add the edge weighted by the Euclidean distance. -/
def addNeighborEdges (m : Mask) (G : Graph) (p : Node) : Graph :=
  NEIGHBORS.foldl (fun G d =>
    if inOn m (p.1 + d.1, p.2 + d.2) then
      addEdge G p (p.1 + d.1, p.2 + d.2) (sqDistZ p (p.1 + d.1, p.2 + d.2))
    else G) G

/-- `build_graph_from_skeleton` from `src/utils/graph_utils.py`:
raises on an empty skeleton (zero on-pixels, which also covers a
zero-size image), otherwise adds every on-pixel as a node and an edge
for every in-bounds 8-neighbour pair of on-pixels. -/
def build_graph_from_skeleton (m : Mask) : Except PErr Graph :=
  if m.points.isEmpty then .error .emptySkeleton
  else .ok (m.points.foldl (addNeighborEdges m)
    (m.points.foldl addNode ⟨[], []⟩))

theorem mem_points_iff (m : Mask) (v : Node) : v ∈ m.points ↔ inOn m v := by
  simp only [Mask.points, List.mem_flatMap, List.mem_range, List.mem_filterMap, inOn]
  constructor
  · rintro ⟨y, hy, x, hx, hv⟩
    split at hv
    · next hp =>
      cases hv
      refine ⟨by omega, by omega, by omega, by omega, ?_⟩
      simpa [Int.toNat_natCast] using hp
    · cases hv
  · rintro ⟨h1, h2, h3, h4, h5⟩
    refine ⟨v.1.toNat, by omega, v.2.toNat, by omega, ?_⟩
    have e1 : ((v.1.toNat : ℤ)) = v.1 := by omega
    have e2 : ((v.2.toNat : ℤ)) = v.2 := by omega
    simp [h5, e1, e2]

theorem points_nodup (m : Mask) : m.points.Nodup := by
  rw [Mask.points, List.nodup_flatMap]
  constructor
  · intro y _
    refine List.Nodup.filterMap ?_ (List.nodup_range _)
    intro a a' b hb hb'
    split at hb
    · split at hb'
      · rw [Option.mem_def] at hb hb'
        cases hb; cases hb'; omega
      · cases hb'
    · cases hb
  · refine (List.pairwise_lt_range _).imp ?_
    intro y y' hyy b hb hb'
    simp only [List.mem_filterMap] at hb hb'
    obtain ⟨x, _, hbx⟩ := hb
    obtain ⟨x', _, hbx'⟩ := hb'
    split at hbx
    · split at hbx'
      · cases hbx; cases hbx'; omega
      · cases hbx'
    · cases hbx

theorem points_eq_nil_iff (m : Mask) :
    m.points = [] ↔ ∀ q : Node, ¬ inOn m q := by
  rw [List.eq_nil_iff_forall_not_mem]
  exact forall_congr' fun q => not_congr (mem_points_iff m q)

/- ### Elementary graph-operation lemmas -/

theorem addNode_edges (G : Graph) (v : Node) : (addNode G v).edges = G.edges := by
  rw [addNode]; split <;> rfl

theorem addNode_nodes_of_mem {G : Graph} {v : Node} (h : v ∈ G.nodes) :
    (addNode G v).nodes = G.nodes := by
  rw [addNode, if_pos h]

theorem edgeFor_symm (u v : Node) (e : Node × Node × ℕ) :
    edgeFor u v e = edgeFor v u e := by
  unfold edgeFor
  exact decide_eq_decide.mpr (by tauto)

theorem hasEdge_symm (G : Graph) (u v : Node) : hasEdge G u v = hasEdge G v u := by
  unfold hasEdge
  congr 1
  funext e
  exact edgeFor_symm u v e

theorem hasEdge_addNode (G : Graph) (w u v : Node) :
    hasEdge (addNode G w) u v = hasEdge G u v := by
  unfold hasEdge
  rw [addNode_edges]

theorem addEdge_nodes_of_mem {G : Graph} {u v : Node} (hu : u ∈ G.nodes)
    (hv : v ∈ G.nodes) (sq : ℕ) : (addEdge G u v sq).nodes = G.nodes := by
  rw [addEdge]
  have h1 : addNode G u = G := by rw [addNode, if_pos hu]
  have h2 : addNode (addNode G u) v = G := by rw [h1, addNode, if_pos hv]
  rw [h2]
  split <;> rfl

theorem addEdge_edges_cases (G : Graph) (u v : Node) (sq : ℕ) :
    (hasEdge G u v = true ∧ (addEdge G u v sq).edges = G.edges) ∨
    (hasEdge G u v = false ∧ (addEdge G u v sq).edges = G.edges ++ [(u, v, sq)]) := by
  rw [addEdge]
  have he : (addNode (addNode G u) v).edges = G.edges := by
    rw [addNode_edges, addNode_edges]
  have hh : hasEdge (addNode (addNode G u) v) u v = hasEdge G u v := by
    rw [hasEdge_addNode, hasEdge_addNode]
  rcases hB : hasEdge G u v with _ | _
  · right
    refine ⟨rfl, ?_⟩
    rw [if_neg ?_, he]
    rw [hh, hB]; simp
  · left
    refine ⟨rfl, ?_⟩
    rw [if_pos ?_, he]
    rw [hh, hB]

theorem hasEdge_append (G : Graph) (ext : List (Node × Node × ℕ)) (u v : Node) :
    hasEdge ⟨G.nodes, G.edges ++ ext⟩ u v =
      (hasEdge G u v || ext.any (edgeFor u v)) := by
  unfold hasEdge
  exact List.any_append

theorem hasEdge_addEdge_mono {G : Graph} {a b : Node} (u v : Node) (sq : ℕ)
    (h : hasEdge G a b = true) : hasEdge (addEdge G u v sq) a b = true := by
  rcases addEdge_edges_cases G u v sq with ⟨_, he⟩ | ⟨_, he⟩
  · unfold hasEdge at h ⊢
    rw [he]
    exact h
  · unfold hasEdge at h ⊢
    rw [he, List.any_append, h]
    rfl

theorem hasEdge_addEdge_self (G : Graph) (u v : Node) (sq : ℕ) :
    hasEdge (addEdge G u v sq) u v = true := by
  rcases addEdge_edges_cases G u v sq with ⟨hh, he⟩ | ⟨_, he⟩ <;>
      unfold hasEdge at * <;> rw [he]
  · exact hh
  · simp [edgeFor]

/- ### Generic fold helpers -/

theorem foldl_keep {α : Type} (step : Graph → α → Graph) (P : Graph → Prop)
    (h : ∀ G b, P G → P (step G b)) :
    ∀ (l : List α) (G : Graph), P G → P (l.foldl step G) := by
  intro l
  induction l with
  | nil => intro G hG; exact hG
  | cons x t ih => intro G hG; exact ih (step G x) (h G x hG)

theorem foldl_estab {α : Type} (step : Graph → α → Graph) (Q : α → Graph → Prop)
    (hmono : ∀ a G b, Q a G → Q a (step G b))
    (hestab : ∀ a G, Q a (step G a)) :
    ∀ (l : List α) (G : Graph), ∀ a ∈ l, Q a (l.foldl step G) := by
  intro l
  induction l with
  | nil => intro G a ha; cases ha
  | cons x t ih =>
    intro G a ha
    rcases List.mem_cons.mp ha with rfl | ha'
    · exact foldl_keep step (Q a) (fun G b => hmono a G b) t (step G a) (hestab a G)
    · exact ih (step G x) a ha'

/- ### The node list of the built graph -/

theorem foldl_addNode_edges (l : List Node) (G : Graph) :
    (l.foldl addNode G).edges = G.edges := by
  induction l generalizing G with
  | nil => rfl
  | cons a t ih => rw [List.foldl_cons, ih, addNode_edges]

theorem foldl_addNode_nodes (l : List Node) :
    ∀ G : Graph, (∀ v ∈ l, v ∉ G.nodes) → l.Nodup →
      (l.foldl addNode G).nodes = G.nodes ++ l := by
  induction l with
  | nil => intro G _ _; simp
  | cons a t ih =>
    intro G hG hnd
    have ha : a ∉ G.nodes := hG a (by simp)
    have hstep : addNode G a = ⟨G.nodes ++ [a], G.edges⟩ := by
      rw [addNode, if_neg ha]
    rw [List.foldl_cons, hstep, ih]
    · simp
    · intro v hv
      simp only [List.mem_append, List.mem_singleton]
      rintro (h | h)
      · exact hG v (by simp [hv]) h
      · subst h; exact (List.nodup_cons.mp hnd).1 hv
    · exact (List.nodup_cons.mp hnd).2

theorem addNeighborEdges_nodes (m : Mask) (G : Graph) (p : Node)
    (hp : p ∈ G.nodes) (hall : ∀ q : Node, inOn m q → q ∈ G.nodes) :
    (addNeighborEdges m G p).nodes = G.nodes := by
  rw [addNeighborEdges]
  generalize NEIGHBORS = l
  induction l generalizing G with
  | nil => rfl
  | cons d t ih =>
    rw [List.foldl_cons]
    split
    · next hin =>
      have hq : ((p.1 + d.1, p.2 + d.2) : Node) ∈ G.nodes := hall _ hin
      rw [ih _ ?_ ?_] <;> rw [addEdge_nodes_of_mem hp hq]
      · exact hp
      · exact hall
    · exact ih G hp hall

theorem build_error_iff (m : Mask) :
    build_graph_from_skeleton m = .error .emptySkeleton ↔ m.points = [] := by
  rw [build_graph_from_skeleton]
  split
  · next h => simpa [List.isEmpty_iff] using h
  · next h =>
    rw [List.isEmpty_iff] at h
    simp [h]

theorem build_ok_nodes {m : Mask} {G : Graph}
    (h : build_graph_from_skeleton m = .ok G) : G.nodes = m.points := by
  rw [build_graph_from_skeleton] at h
  split at h
  · cases h
  · cases h
    have h0 : (m.points.foldl addNode ⟨[], []⟩).nodes = m.points := by
      rw [foldl_addNode_nodes m.points ⟨[], []⟩ (by intro v _ hv; cases hv)
        (points_nodup m)]
      rfl
    refine @List.foldlRecOn Graph Node (fun G' => G'.nodes = m.points)
      m.points (addNeighborEdges m) _ h0 ?_
    intro G' hG' p hp
    rw [addNeighborEdges_nodes m G' p, hG']
    · rw [hG']; exact hp
    · intro q hq
      rw [hG']
      exact (mem_points_iff m q).mpr hq

/- ### Stored edges of the built graph -/

/-- Every stored edge record of a skeleton-built graph joins two distinct
8-adjacent on-pixels with the squared Euclidean distance as its weight. -/
def EdgeOK (m : Mask) (e : Node × Node × ℕ) : Prop :=
  e.1 ∈ m.points ∧ e.2.1 ∈ m.points ∧ e.1 ≠ e.2.1 ∧ adj8 e.1 e.2.1 ∧
    e.2.2 = sqDistZ e.1 e.2.1

/-- Two edge records join the same unordered node pair. -/
def sameEdge (e1 e2 : Node × Node × ℕ) : Prop :=
  (e1.1 = e2.1 ∧ e1.2.1 = e2.2.1) ∨ (e1.1 = e2.2.1 ∧ e1.2.1 = e2.1)

/-- No two stored edge records of the graph join the same unordered pair. -/
def NoDupE (G : Graph) : Prop :=
  G.edges.Pairwise (fun e1 e2 => ¬ sameEdge e1 e2)

theorem addEdge_edgeInv {m : Mask} {G : Graph} {u v : Node}
    (hinv : (∀ e ∈ G.edges, EdgeOK m e) ∧ NoDupE G)
    (hu : u ∈ m.points) (hv : v ∈ m.points) (hne : u ≠ v) (hadj : adj8 u v) :
    (∀ e ∈ (addEdge G u v (sqDistZ u v)).edges, EdgeOK m e) ∧
      NoDupE (addEdge G u v (sqDistZ u v)) := by
  rcases addEdge_edges_cases G u v (sqDistZ u v) with ⟨_, he⟩ | ⟨hno, he⟩
  · constructor
    · intro e hee; rw [he] at hee; exact hinv.1 e hee
    · unfold NoDupE; rw [he]; exact hinv.2
  · constructor
    · intro e hee
      rw [he, List.mem_append] at hee
      rcases hee with hee | hee
      · exact hinv.1 e hee
      · rcases List.mem_singleton.mp hee with rfl
        exact ⟨hu, hv, hne, hadj, rfl⟩
    · unfold NoDupE
      rw [he, List.pairwise_append]
      refine ⟨hinv.2, List.pairwise_singleton _ _, ?_⟩
      intro e1 he1 e2 he2
      rcases List.mem_singleton.mp he2 with rfl
      intro hsame
      have : edgeFor u v e1 = true := by
        unfold edgeFor
        rcases hsame with ⟨h1, h2⟩ | ⟨h1, h2⟩
        · exact decide_eq_true (Or.inl ⟨h1, h2⟩)
        · exact decide_eq_true (Or.inr ⟨h1, h2⟩)
      have : hasEdge G u v = true := by
        unfold hasEdge
        rw [List.any_eq_true]
        exact ⟨e1, he1, this⟩
      rw [hno] at this
      cases this

theorem neighbors_spec :
    ∀ d ∈ NEIGHBORS, d ≠ ((0 : ℤ), (0 : ℤ)) ∧ d.1.natAbs ≤ 1 ∧ d.2.natAbs ≤ 1 := by
  decide

theorem build_ok_edges {m : Mask} {G : Graph}
    (h : build_graph_from_skeleton m = .ok G) :
    (∀ e ∈ G.edges, EdgeOK m e) ∧ NoDupE G := by
  rw [build_graph_from_skeleton] at h
  split at h
  · cases h
  · cases h
    have h0 : (∀ e ∈ (m.points.foldl addNode (⟨[], []⟩ : Graph)).edges, EdgeOK m e) ∧
        NoDupE (m.points.foldl addNode ⟨[], []⟩) := by
      constructor
      · intro e he; rw [foldl_addNode_edges] at he; cases he
      · unfold NoDupE; rw [foldl_addNode_edges]; exact List.Pairwise.nil
    refine @List.foldlRecOn Graph Node
      (fun G' => (∀ e ∈ G'.edges, EdgeOK m e) ∧ NoDupE G')
      m.points (addNeighborEdges m) _ h0 ?_
    intro G' hG' p hp
    rw [addNeighborEdges]
    have hgen : ∀ (l : List (ℤ × ℤ)), (∀ d ∈ l, d ∈ NEIGHBORS) →
        ∀ G'' : Graph, ((∀ e ∈ Graph.edges G'', EdgeOK m e) ∧ NoDupE G'') →
        (∀ e ∈ (l.foldl (fun G d =>
            if inOn m (p.1 + d.1, p.2 + d.2) then
              addEdge G p (p.1 + d.1, p.2 + d.2) (sqDistZ p (p.1 + d.1, p.2 + d.2))
            else G) G'').edges, EdgeOK m e) ∧
          NoDupE (l.foldl (fun G d =>
            if inOn m (p.1 + d.1, p.2 + d.2) then
              addEdge G p (p.1 + d.1, p.2 + d.2) (sqDistZ p (p.1 + d.1, p.2 + d.2))
            else G) G'') := by
      intro l
      induction l with
      | nil => intro _ G'' hinv; exact hinv
      | cons d t ih =>
        intro hmem G'' hinv
        rw [List.foldl_cons]
        refine ih (fun x hx => hmem x (by simp [hx])) _ ?_
        split
        · next hin =>
          have hd := neighbors_spec d (hmem d (by simp))
          refine addEdge_edgeInv hinv hp ((mem_points_iff m _).mpr hin) ?_ ?_
          · intro hpq
            rw [Prod.ext_iff] at hpq
            simp only [] at hpq
            refine hd.1 ?_
            rw [Prod.ext_iff]
            simp only []
            omega
          · unfold adj8
            simp only []
            omega
        · exact hinv
    exact hgen NEIGHBORS (fun d hd => hd) G' hG'

/- ### Edge completeness of the built graph -/

theorem addNeighborEdges_hasEdge_mono (m : Mask) {G : Graph} {a b : Node}
    (h : hasEdge G a b = true) (p : Node) :
    hasEdge (addNeighborEdges m G p) a b = true := by
  rw [addNeighborEdges]
  refine foldl_keep _ (fun G => hasEdge G a b = true) ?_ NEIGHBORS G h
  intro G' d hG'
  split
  · exact hasEdge_addEdge_mono _ _ _ hG'
  · exact hG'

theorem build_hasEdge_of {m : Mask} {G : Graph}
    (h : build_graph_from_skeleton m = .ok G) {u v : Node}
    (hu : u ∈ m.points) (hv : v ∈ m.points) (hne : u ≠ v) (hadj : adj8 u v) :
    hasEdge G u v = true := by
  rw [build_graph_from_skeleton] at h
  split at h
  · cases h
  · cases h
    have hest := foldl_estab (addNeighborEdges m)
      (fun p G' => ∀ q : Node, (q.1 - p.1, q.2 - p.2) ∈ NEIGHBORS → inOn m q →
        hasEdge G' p q = true) ?_ ?_ m.points (m.points.foldl addNode ⟨[], []⟩) u hu
    · refine hest v ?_ ((mem_points_iff m v).mp hv)
      unfold adj8 at hadj
      rw [Ne, Prod.ext_iff] at hne
      simp only [NEIGHBORS, List.mem_cons, List.not_mem_nil, or_false,
        Prod.mk.injEq]
      omega
    · intro p G' b hQ q hq hin
      exact addNeighborEdges_hasEdge_mono m (hQ q hq hin) b
    · intro p G' q hq hin
      have hkey : ((p.1 + (q.1 - p.1), p.2 + (q.2 - p.2)) : Node) = q := by
        rw [Prod.ext_iff]
        constructor
        · show p.1 + (q.1 - p.1) = q.1; ring
        · show p.2 + (q.2 - p.2) = q.2; ring
      rw [addNeighborEdges]
      have := foldl_estab
        (fun G d => if inOn m (p.1 + d.1, p.2 + d.2) then
          addEdge G p (p.1 + d.1, p.2 + d.2) (sqDistZ p (p.1 + d.1, p.2 + d.2))
          else G)
        (fun d G' => inOn m (p.1 + d.1, p.2 + d.2) →
          hasEdge G' p (p.1 + d.1, p.2 + d.2) = true) ?_ ?_
        NEIGHBORS G' (q.1 - p.1, q.2 - p.2) hq
      · have hin' : inOn m (p.1 + (q.1 - p.1), p.2 + (q.2 - p.2)) := by
          rw [hkey]; exact hin
        have hres := this hin'
        rw [hkey] at hres
        exact hres
      · intro d G'' b hQ hin'
        dsimp only
        split
        · exact hasEdge_addEdge_mono _ _ _ (hQ hin')
        · exact hQ hin'
      · intro d G'' hin'
        dsimp only
        rw [if_pos hin']
        exact hasEdge_addEdge_self _ _ _ _

theorem build_hasEdge_iff {m : Mask} {G : Graph}
    (h : build_graph_from_skeleton m = .ok G) (u v : Node) :
    hasEdge G u v = true ↔
      (u ∈ m.points ∧ v ∈ m.points ∧ u ≠ v ∧ adj8 u v) := by
  constructor
  · intro hE
    obtain ⟨hEd, _⟩ := build_ok_edges h
    unfold hasEdge at hE
    rw [List.any_eq_true] at hE
    obtain ⟨e, he, hef⟩ := hE
    obtain ⟨h1, h2, h3, h4, h5⟩ := hEd e he
    unfold edgeFor at hef
    rw [decide_eq_true_eq] at hef
    rcases hef with ⟨ha, hb⟩ | ⟨ha, hb⟩
    · subst ha; subst hb; exact ⟨h1, h2, h3, h4⟩
    · subst ha; subst hb
      refine ⟨h2, h1, Ne.symm h3, ?_⟩
      unfold adj8 at h4 ⊢
      omega
  · rintro ⟨hu, hv, hne, hadj⟩
    exact build_hasEdge_of h hu hv hne hadj

/- ### Stored weights of the built graph -/

theorem sqDistZ_symm (u v : Node) : sqDistZ u v = sqDistZ v u := by
  unfold sqDistZ; congr 1; ring

theorem build_getSqD {m : Mask} {G : Graph}
    (h : build_graph_from_skeleton m = .ok G) {u v : Node}
    (hE : hasEdge G u v = true) : getSqD G u v = sqDistZ u v := by
  obtain ⟨hEd, _⟩ := build_ok_edges h
  unfold hasEdge at hE
  rw [List.any_eq_true] at hE
  have hs : (G.edges.find? (edgeFor u v)).isSome := List.find?_isSome.mpr hE
  obtain ⟨e, hfe⟩ := Option.isSome_iff_exists.mp hs
  have hmem := List.mem_of_find?_eq_some hfe
  have hef := List.find?_some hfe
  have hok := hEd e hmem
  unfold getSqD findW
  rw [hfe]
  show e.2.2 = sqDistZ u v
  unfold edgeFor at hef
  rw [decide_eq_true_eq] at hef
  rcases hef with ⟨ha, hb⟩ | ⟨ha, hb⟩
  · rw [hok.2.2.2.2, ha, hb]
  · rw [hok.2.2.2.2, ha, hb, sqDistZ_symm]

/-- The real-valued weight the program stores on an edge
(`G[u][v]['weight']`). -/
noncomputable def weightR (G : Graph) (u v : Node) : ℝ :=
  Real.sqrt (getSqD G u v)

/-- Exact Euclidean distance between two integer pixel coordinates. -/
noncomputable def euclidZ (u v : Node) : ℝ :=
  Real.sqrt ((((u.1 - v.1 : ℤ) : ℝ)) ^ 2 + (((u.2 - v.2 : ℤ) : ℝ)) ^ 2)

theorem sqrt_sqDistZ (u v : Node) : Real.sqrt (sqDistZ u v) = euclidZ u v := by
  unfold sqDistZ euclidZ
  congr 1
  have hnn : (0 : ℤ) ≤ (u.1 - v.1) ^ 2 + (u.2 - v.2) ^ 2 := by positivity
  have h1 : ((((u.1 - v.1) ^ 2 + (u.2 - v.2) ^ 2).toNat : ℕ) : ℝ)
      = (((u.1 - v.1) ^ 2 + (u.2 - v.2) ^ 2 : ℤ) : ℝ) := by
    rw [← Int.cast_natCast, Int.toNat_of_nonneg hnn]
  rw [h1]
  push_cast
  ring

/-- Edge endpoints of a graph are registered nodes. -/
def WFG (G : Graph) : Prop := ∀ e ∈ G.edges, e.1 ∈ G.nodes ∧ e.2.1 ∈ G.nodes

theorem build_WFG {m : Mask} {G : Graph}
    (h : build_graph_from_skeleton m = .ok G) : WFG G := by
  intro e he
  obtain ⟨hEd, _⟩ := build_ok_edges h
  obtain ⟨h1, h2, _⟩ := hEd e he
  rw [build_ok_nodes h]
  exact ⟨h1, h2⟩

/-- C5: for every skeleton mask, `build_graph_from_skeleton` fails with the
empty-skeleton `ProcessingError` exactly when the mask has zero on-pixels;
otherwise it returns a graph whose node set is exactly the set of on-pixel
`(y, x)` coordinates, whose edges are exactly the pairs of in-bounds
8-adjacent on-pixels, and whose stored weight on every edge is the exact
Euclidean distance between the two integer coordinates (`1` orthogonally,
`√2` diagonally, as `euclidZ` evaluates there). -/
theorem build_graph_from_skeleton_spec (m : Mask) :
    (build_graph_from_skeleton m = .error .emptySkeleton ↔
      ∀ q : Node, ¬ inOn m q) ∧
    ∀ G, build_graph_from_skeleton m = .ok G →
      (∀ v, v ∈ G.nodes ↔ inOn m v) ∧
      (∀ u v, hasEdge G u v = true ↔
        (inOn m u ∧ inOn m v ∧ u ≠ v ∧ adj8 u v)) ∧
      (∀ u v, hasEdge G u v = true → weightR G u v = euclidZ u v) := by
  constructor
  · rw [build_error_iff]
    exact points_eq_nil_iff m
  · intro G hG
    refine ⟨?_, ?_, ?_⟩
    · intro v
      rw [build_ok_nodes hG]
      exact mem_points_iff m v
    · intro u v
      rw [build_hasEdge_iff hG u v, mem_points_iff, mem_points_iff]
    · intro u v hE
      rw [weightR, build_getSqD hG hE, sqrt_sqDistZ]

/-- Concrete 1×2 all-on mask used to instantiate `build_graph_from_skeleton_spec`. -/
def mW5 : Mask := ⟨1, 2, fun _ _ => true⟩

/-- The graph built from `mW5`. -/
def GW5 : Graph := (build_graph_from_skeleton mW5).toOption.getD ⟨[], []⟩

/-- Witness: `build_graph_from_skeleton_spec` instantiated on the concrete
mask `mW5` and its graph `GW5`. -/
theorem build_graph_from_skeleton_spec_witness :
    (((0, 0) : Node) ∈ GW5.nodes ↔ inOn mW5 (0, 0)) ∧
    (hasEdge GW5 (0, 0) (0, 1) = true ↔
      (inOn mW5 (0, 0) ∧ inOn mW5 (0, 1) ∧ ((0, 0) : Node) ≠ (0, 1) ∧
        adj8 (0, 0) (0, 1))) :=
  ⟨((build_graph_from_skeleton_spec mW5).2 GW5 (by rfl)).1 (0, 0),
    ((build_graph_from_skeleton_spec mW5).2 GW5 (by rfl)).2.1 (0, 0) (0, 1)⟩

/- ### Exact arithmetic for skeleton path weights

On a skeleton-built graph every edge weight is `√1 = 1` or `√2`, so every
path weight is `a + b·√2` with natural `a` and `b`.  `networkx` compares
such weights as floats inside Dijkstra; the embedding compares them
exactly through the decidable order `wle` below, which is proved to agree
with the real order. -/

/-- A path weight `a + b·√2`, stored as the pair `(a, b)`. -/
abbrev Wt : Type := ℕ × ℕ

/-- Addition of `a + b·√2` weights. -/
def wadd (x y : Wt) : Wt := (x.1 + y.1, x.2 + y.2)

/-- The real value of a weight. -/
noncomputable def toRealW (x : Wt) : ℝ := (x.1 : ℝ) + (x.2 : ℝ) * Real.sqrt 2

/-- Decidable comparison of `a + b·√2` weights (by comparing squares). -/
def wle (x y : Wt) : Bool :=
  if 0 ≤ (y.1 : ℤ) - x.1 then
    (decide ((x.2 : ℤ) - y.2 ≤ 0) ||
      decide (2 * ((x.2 : ℤ) - y.2) * ((x.2 : ℤ) - y.2) ≤
        ((y.1 : ℤ) - x.1) * ((y.1 : ℤ) - x.1)))
  else
    (decide ((x.2 : ℤ) - y.2 ≤ 0) &&
      decide (((y.1 : ℤ) - x.1) * ((y.1 : ℤ) - x.1) ≤
        2 * ((x.2 : ℤ) - y.2) * ((x.2 : ℤ) - y.2)))

theorem wle_iff (x y : Wt) : wle x y = true ↔ toRealW x ≤ toRealW y := by
  have h2 : (0 : ℝ) < Real.sqrt 2 := Real.sqrt_pos.mpr (by norm_num)
  have hsq : Real.sqrt 2 * Real.sqrt 2 = 2 := Real.mul_self_sqrt (by norm_num)
  have hkey : (toRealW x ≤ toRealW y) ↔
      ((x.2 : ℝ) - (y.2 : ℝ)) * Real.sqrt 2 ≤ (y.1 : ℝ) - (x.1 : ℝ) := by
    unfold toRealW
    constructor <;> intro h <;> nlinarith [h]
  rw [hkey, wle]
  split
  · next hs =>
    have hS : (0 : ℝ) ≤ (y.1 : ℝ) - (x.1 : ℝ) := by exact_mod_cast hs
    rw [Bool.or_eq_true, decide_eq_true_eq, decide_eq_true_eq]
    constructor
    · rintro (ht | hq)
      · have hT : ((x.2 : ℝ) - (y.2 : ℝ)) ≤ 0 := by exact_mod_cast ht
        nlinarith
      · have hq' : 2 * ((x.2 : ℝ) - (y.2 : ℝ)) * ((x.2 : ℝ) - (y.2 : ℝ)) ≤
            ((y.1 : ℝ) - (x.1 : ℝ)) * ((y.1 : ℝ) - (x.1 : ℝ)) := by
          exact_mod_cast hq
        by_contra hc
        push_neg at hc
        have := mul_self_lt_mul_self hS hc
        nlinarith
    · intro h
      by_cases ht : ((x.2 : ℤ) - (y.2 : ℤ)) ≤ 0
      · exact Or.inl ht
      · right
        push_neg at ht
        have hT : (0 : ℝ) < ((x.2 : ℝ) - (y.2 : ℝ)) := by exact_mod_cast ht
        have hTs : 0 ≤ ((x.2 : ℝ) - (y.2 : ℝ)) * Real.sqrt 2 :=
          le_of_lt (mul_pos hT h2)
        have hsqle := mul_self_le_mul_self hTs h
        have hfin : 2 * ((x.2 : ℝ) - (y.2 : ℝ)) * ((x.2 : ℝ) - (y.2 : ℝ)) ≤
            ((y.1 : ℝ) - (x.1 : ℝ)) * ((y.1 : ℝ) - (x.1 : ℝ)) := by nlinarith
        exact_mod_cast hfin
  · next hs =>
    push_neg at hs
    have hS : ((y.1 : ℝ) - (x.1 : ℝ)) < 0 := by exact_mod_cast hs
    rw [Bool.and_eq_true, decide_eq_true_eq, decide_eq_true_eq]
    constructor
    · rintro ⟨ht, hq⟩
      have hT : ((x.2 : ℝ) - (y.2 : ℝ)) ≤ 0 := by exact_mod_cast ht
      have hq' : ((y.1 : ℝ) - (x.1 : ℝ)) * ((y.1 : ℝ) - (x.1 : ℝ)) ≤
          2 * ((x.2 : ℝ) - (y.2 : ℝ)) * ((x.2 : ℝ) - (y.2 : ℝ)) := by
        exact_mod_cast hq
      by_contra hc
      push_neg at hc
      have h1 : 0 ≤ -(((x.2 : ℝ) - (y.2 : ℝ)) * Real.sqrt 2) := by nlinarith
      have h3 : -(((x.2 : ℝ) - (y.2 : ℝ)) * Real.sqrt 2) < -((y.1 : ℝ) - (x.1 : ℝ)) := by
        linarith
      have := mul_self_lt_mul_self h1 h3
      nlinarith
    · intro h
      constructor
      · by_contra ht
        push_neg at ht
        have hT : (0 : ℝ) < ((x.2 : ℝ) - (y.2 : ℝ)) := by exact_mod_cast ht
        nlinarith [mul_pos hT h2]
      · have h1 : 0 ≤ -((y.1 : ℝ) - (x.1 : ℝ)) := by linarith
        have h3 : -((y.1 : ℝ) - (x.1 : ℝ)) ≤ -(((x.2 : ℝ) - (y.2 : ℝ)) * Real.sqrt 2) := by
          linarith
        have hm := mul_self_le_mul_self h1 h3
        have hfin : ((y.1 : ℝ) - (x.1 : ℝ)) * ((y.1 : ℝ) - (x.1 : ℝ)) ≤
            2 * ((x.2 : ℝ) - (y.2 : ℝ)) * ((x.2 : ℝ) - (y.2 : ℝ)) := by nlinarith
        exact_mod_cast hfin

theorem wle_refl (x : Wt) : wle x x = true := (wle_iff x x).mpr le_rfl

theorem wle_trans {x y z : Wt} (h1 : wle x y = true) (h2 : wle y z = true) :
    wle x z = true :=
  (wle_iff x z).mpr (le_trans ((wle_iff x y).mp h1) ((wle_iff y z).mp h2))

theorem wle_total (x y : Wt) : wle x y = true ∨ wle y x = true := by
  rcases le_total (toRealW x) (toRealW y) with h | h
  · exact Or.inl ((wle_iff x y).mpr h)
  · exact Or.inr ((wle_iff y x).mpr h)

theorem toRealW_wadd (x y : Wt) : toRealW (wadd x y) = toRealW x + toRealW y := by
  unfold toRealW wadd
  push_cast
  ring

theorem wadd_zero_left (x : Wt) : wadd (0, 0) x = x := by
  unfold wadd; simp

theorem wadd_zero_right (x : Wt) : wadd x (0, 0) = x := by
  unfold wadd; simp

theorem wadd_assoc (x y z : Wt) : wadd (wadd x y) z = wadd x (wadd y z) := by
  simp only [wadd, Prod.mk.injEq]
  omega

theorem wadd_comm (x y : Wt) : wadd x y = wadd y x := by
  simp only [wadd, Prod.mk.injEq]
  omega

theorem wle_wadd_right {x y : Wt} (c : Wt) (h : wle x y = true) :
    wle (wadd x c) (wadd y c) = true := by
  rw [wle_iff, toRealW_wadd, toRealW_wadd]
  exact add_le_add_right ((wle_iff x y).mp h) _

/- ### Single-source shortest paths by table relaxation

`networkx.single_source_dijkstra_path_length(G, s)` returns, for every
node reachable from `s`, the exact shortest weighted distance (all edge
weights here are nonnegative).  The embedding computes the same map by
`|V|` rounds of edge relaxation over a table that also carries a walk
realizing each entry; with nonnegative weights both procedures compute
the min-over-walks distances on exactly the reachable set, so the table
is an extensionally faithful model of the library call.  The same
machinery instantiated with the constant edge weight `1` models the
breadth-first search inside `nx.shortest_path(G, n1, n2)` (which is
called *without* a `weight=` argument and therefore ignores weights). -/

/-- A relaxation table: for each node (in `G.nodes` order), optionally the
best weight found so far together with a walk from the source realizing it. -/
abbrev Table (α : Type) : Type := List (Node × Option (α × List Node))

/-- Bundled order/monoid laws for a weight type used by the relaxation. -/
structure WLaws (α : Type) (z : α) (add : α → α → α) (ble : α → α → Bool) : Prop where
  lrefl : ∀ a, ble a a = true
  ltrans : ∀ {a b c}, ble a b = true → ble b c = true → ble a c = true
  ltotal : ∀ a b, ble a b = true ∨ ble b a = true
  lmono : ∀ {a b} (c), ble a b = true → ble (add a c) (add b c) = true
  zl : ∀ a, add z a = a
  zr : ∀ a, add a z = a
  aassoc : ∀ a b c, add (add a b) c = add a (add b c)
  acomm : ∀ a b, add a b = add b a

theorem wlaws_W : WLaws Wt (0, 0) wadd wle :=
  ⟨wle_refl, fun h1 h2 => wle_trans h1 h2, wle_total, fun c h => wle_wadd_right c h,
    wadd_zero_left, wadd_zero_right, wadd_assoc, wadd_comm⟩

theorem wlaws_N : WLaws ℕ 0 Nat.add (fun a b => decide (a ≤ b)) := by
  constructor
  · intro a; simp
  · intro a b c h1 h2
    rw [decide_eq_true_eq] at *
    omega
  · intro a b
    rcases Nat.le_total a b with h | h
    · exact Or.inl (decide_eq_true h)
    · exact Or.inr (decide_eq_true h)
  · intro a b c h
    rw [decide_eq_true_eq] at *
    show a + c ≤ b + c
    omega
  · intro a; show 0 + a = a; omega
  · intro a; show a + 0 = a; omega
  · intro a b c; show a + b + c = a + (b + c); omega
  · intro a b; show a + b = b + a; omega

section Relax

variable {α : Type} (z : α) (add : α → α → α) (wgt : ℕ → α) (ble : α → α → Bool)

/-- Look up the table entry of a node. -/
def lookupT (tbl : Table α) (v : Node) : Option (α × List Node) :=
  (tbl.find? (fun e => decide (e.1 = v))).bind (fun e => e.2)

/-- Keep the better (smaller, ties to the incumbent) of the current entry
and a candidate. -/
def better (cur : Option (α × List Node)) (c : α × List Node) :
    Option (α × List Node) :=
  match cur with
  | none => some c
  | some c0 => if ble c0.1 c.1 then some c0 else some c

/-- All relaxation candidates into `v`: for every stored edge incident to
`v` whose other endpoint has a table entry, extend that entry's walk by the
edge. -/
def cands (G : Graph) (tbl : Table α) (v : Node) : List (α × List Node) :=
  (G.edges.filterMap (fun e =>
    if e.2.1 = v then
      (lookupT tbl e.1).map (fun c => (add c.1 (wgt e.2.2), c.2 ++ [v]))
    else none)) ++
  (G.edges.filterMap (fun e =>
    if e.1 = v then
      (lookupT tbl e.2.1).map (fun c => (add c.1 (wgt e.2.2), c.2 ++ [v]))
    else none))

/-- One relaxation round. -/
def stepT (G : Graph) (tbl : Table α) : Table α :=
  tbl.map (fun e => (e.1, (cands add wgt G tbl e.1).foldl (better ble) e.2))

/-- Iterated relaxation rounds. -/
def stepNT (G : Graph) : ℕ → Table α → Table α
  | 0, tbl => tbl
  | n + 1, tbl => stepNT G n (stepT add wgt ble G tbl)

/-- The initial table: the source holds weight zero with the trivial walk. -/
def initT (G : Graph) (s : Node) : Table α :=
  G.nodes.map (fun v => (v, if v = s then some (z, [s]) else none))

/-- The relaxation table after `|V|` rounds from source `s`. -/
def bfT (G : Graph) (s : Node) : Table α :=
  stepNT add wgt ble G G.nodes.length (initT z G s)

end Relax

/- ### Table lookup lemmas -/

theorem lookupT_mapfn {α : Type} (l : List Node) (f : Node → Option (α × List Node))
    (v : Node) :
    lookupT (l.map (fun u => (u, f u))) v = if v ∈ l then f v else none := by
  induction l with
  | nil => simp [lookupT]
  | cons a t ih =>
    by_cases hav : a = v
    · subst hav
      unfold lookupT
      rw [List.map_cons, List.find?_cons_of_pos _ (by simp)]
      simp
    · unfold lookupT at ih ⊢
      rw [List.map_cons, List.find?_cons_of_neg _ (by simp [hav])]
      rw [ih]
      by_cases hvt : v ∈ t
      · rw [if_pos hvt, if_pos (by simp [hvt])]
      · have hnc : v ∉ a :: t := by
          intro hmem
          rcases List.mem_cons.mp hmem with h | h
          · exact hav h.symm
          · exact hvt h
        rw [if_neg hvt, if_neg hnc]

theorem find?_key_eq {α : Type} (tbl : Table α) (v : Node)
    {e : Node × Option (α × List Node)}
    (h : tbl.find? (fun e => decide (e.1 = v)) = some e) : e.1 = v := by
  simpa using List.find?_some h

theorem lookupT_stepT {α : Type} (add : α → α → α) (wgt : ℕ → α)
    (ble : α → α → Bool) (G : Graph) (tbl : Table α) (v : Node) :
    lookupT (stepT add wgt ble G tbl) v =
      (tbl.find? (fun e => decide (e.1 = v))).bind
        (fun e => (cands add wgt G tbl v).foldl (better ble) e.2) := by
  unfold lookupT stepT
  rw [List.find?_map]
  show ((tbl.find? ((fun e : Node × Option (α × List Node) => decide (e.1 = v)) ∘
    (fun e => (e.1, (cands add wgt G tbl e.1).foldl (better ble) e.2)))).map
      (fun e => (e.1, (cands add wgt G tbl e.1).foldl (better ble) e.2))).bind
      (fun e => e.2) = _
  have hpred : ((fun e : Node × Option (α × List Node) => decide (e.1 = v)) ∘
      (fun e : Node × Option (α × List Node) =>
        (e.1, (cands add wgt G tbl e.1).foldl (better ble) e.2))) =
      (fun e : Node × Option (α × List Node) => decide (e.1 = v)) := rfl
  rw [hpred]
  cases hf : tbl.find? (fun e : Node × Option (α × List Node) => decide (e.1 = v)) with
  | none => rfl
  | some e =>
    obtain ⟨k, o⟩ := e
    have he1 : k = v := by simpa using List.find?_some hf
    subst he1
    rfl

theorem stepT_keys {α : Type} (add : α → α → α) (wgt : ℕ → α) (ble : α → α → Bool)
    (G : Graph) (tbl : Table α) :
    (stepT add wgt ble G tbl).map Prod.fst = tbl.map Prod.fst := by
  unfold stepT
  rw [List.map_map]
  rfl

theorem stepNT_keys {α : Type} (add : α → α → α) (wgt : ℕ → α) (ble : α → α → Bool)
    (G : Graph) (n : ℕ) (tbl : Table α) :
    (stepNT add wgt ble G n tbl).map Prod.fst = tbl.map Prod.fst := by
  induction n generalizing tbl with
  | zero => rfl
  | succ k ih => rw [stepNT, ih, stepT_keys]

theorem initT_keys {α : Type} (z : α) (G : Graph) (s : Node) :
    (initT z G s).map Prod.fst = G.nodes := by
  unfold initT
  rw [List.map_map]
  have hc : (Prod.fst ∘ fun v : Node =>
      (v, if v = s then some (z, [s]) else (none : Option (α × List Node)))) = id := by
    funext v
    rfl
  rw [hc, List.map_id]

theorem lookupT_initT {α : Type} (z : α) (G : Graph) (s v : Node) :
    lookupT (initT z G s) v =
      if v ∈ G.nodes then (if v = s then some (z, [s]) else none) else none := by
  unfold initT
  exact lookupT_mapfn G.nodes _ v

/- ### Folding `better` over candidates -/

theorem better_none {α : Type} (ble : α → α → Bool) (c : α × List Node) :
    better ble none c = some c := rfl

theorem better_some {α : Type} (ble : α → α → Bool) (c0 c : α × List Node) :
    better ble (some c0) c = if ble c0.1 c.1 then some c0 else some c := rfl

theorem foldl_better_mem {α : Type} (ble : α → α → Bool)
    (l : List (α × List Node)) :
    ∀ init c1, l.foldl (better ble) init = some c1 → init = some c1 ∨ c1 ∈ l := by
  induction l with
  | nil => intro init c1 h; exact Or.inl h
  | cons x t ih =>
    intro init c1 h
    rw [List.foldl_cons] at h
    rcases ih (better ble init x) c1 h with h' | h'
    · cases init with
      | none =>
        rw [better_none] at h'
        cases h'
        exact Or.inr (by simp)
      | some c0 =>
        rw [better_some] at h'
        split at h'
        · cases h'; exact Or.inl rfl
        · cases h'; exact Or.inr (by simp)
    · exact Or.inr (by simp [h'])

theorem foldl_better_isSome_of_some {α : Type} (ble : α → α → Bool)
    (l : List (α × List Node)) :
    ∀ c0, (l.foldl (better ble) (some c0)).isSome = true := by
  induction l with
  | nil => intro c0; rfl
  | cons x t ih =>
    intro c0
    rw [List.foldl_cons, better_some]
    split <;> exact ih _

theorem foldl_better_isSome_of_mem {α : Type} (ble : α → α → Bool)
    (l : List (α × List Node)) :
    ∀ init c, c ∈ l → (l.foldl (better ble) init).isSome = true := by
  induction l with
  | nil => intro _ _ h; cases h
  | cons x t ih =>
    intro init c hc
    rw [List.foldl_cons]
    cases init with
    | none =>
      rw [better_none]
      exact foldl_better_isSome_of_some ble t x
    | some c0 =>
      rw [better_some]
      split <;> exact foldl_better_isSome_of_some ble t _

theorem foldl_better_le {α : Type} {z : α} {add : α → α → α} {ble : α → α → Bool}
    (L : WLaws α z add ble) (l : List (α × List Node)) :
    ∀ init c1, l.foldl (better ble) init = some c1 →
      (∀ c0, init = some c0 → ble c1.1 c0.1 = true) ∧
      (∀ c ∈ l, ble c1.1 c.1 = true) := by
  induction l with
  | nil =>
    intro init c1 h
    refine ⟨?_, ?_⟩
    · intro c0 h0
      rw [h0] at h
      cases h
      exact L.lrefl _
    · intro c hc; cases hc
  | cons x t ih =>
    intro init c1 h
    rw [List.foldl_cons] at h
    obtain ⟨ih1, ih2⟩ := ih (better ble init x) c1 h
    have hx : ble c1.1 x.1 = true := by
      cases init with
      | none => exact ih1 x (better_none ble x)
      | some c0 =>
        rw [better_some] at ih1
        by_cases hb : ble c0.1 x.1 = true
        · rw [if_pos hb] at ih1
          exact L.ltrans (ih1 c0 rfl) hb
        · rw [if_neg hb] at ih1
          exact ih1 x rfl
    refine ⟨?_, ?_⟩
    · intro c0 h0
      subst h0
      rw [better_some] at ih1
      by_cases hb : ble c0.1 x.1 = true
      · rw [if_pos hb] at ih1
        exact ih1 c0 rfl
      · rw [if_neg hb] at ih1
        have hxc : ble x.1 c0.1 = true := (L.ltotal x.1 c0.1).resolve_right hb
        exact L.ltrans (ih1 x rfl) hxc
    · intro c hc
      rcases List.mem_cons.mp hc with rfl | hc'
      · exact hx
      · exact ih2 c hc'

/- ### Candidate lemmas -/

theorem sameEdge_symm : Symmetric (fun e1 e2 : Node × Node × ℕ => ¬ sameEdge e1 e2) := by
  intro e1 e2 h hs
  exact h (by unfold sameEdge at hs ⊢; tauto)

theorem findW_eq {G : Graph} {u v : Node} {e : Node × Node × ℕ}
    (hnd : NoDupE G) (he : e ∈ G.edges) (hef : edgeFor u v e = true) :
    findW G u v = some e.2.2 := by
  have hs : (G.edges.find? (edgeFor u v)).isSome :=
    List.find?_isSome.mpr ⟨e, he, hef⟩
  obtain ⟨e', hfe⟩ := Option.isSome_iff_exists.mp hs
  have hmem := List.mem_of_find?_eq_some hfe
  have hef' := List.find?_some hfe
  have hee : e = e' := by
    by_contra hne
    have := (hnd.forall sameEdge_symm) he hmem hne
    unfold edgeFor at hef hef'
    rw [decide_eq_true_eq] at hef hef'
    refine this ?_
    unfold sameEdge
    rcases hef with ⟨h1, h2⟩ | ⟨h1, h2⟩ <;> rcases hef' with ⟨g1, g2⟩ | ⟨g1, g2⟩ <;>
      simp [h1, h2, g1.symm, g2.symm]
  unfold findW
  rw [hfe, ← hee]
  rfl

theorem getSqD_of_edge {G : Graph} {u v : Node} {e : Node × Node × ℕ}
    (hnd : NoDupE G) (he : e ∈ G.edges) (hef : edgeFor u v e = true) :
    getSqD G u v = e.2.2 := by
  unfold getSqD
  rw [findW_eq hnd he hef]
  rfl

theorem mem_cands_val {α : Type} {add : α → α → α} {wgt : ℕ → α} {G : Graph}
    {tbl : Table α} {v : Node} {c : α × List Node}
    (h : c ∈ cands add wgt G tbl v) :
    ∃ (u : Node) (e : Node × Node × ℕ) (d : α) (wk : List Node),
      e ∈ G.edges ∧ edgeFor u v e = true ∧ lookupT tbl u = some (d, wk) ∧
      c = (add d (wgt e.2.2), wk ++ [v]) := by
  unfold cands at h
  rw [List.mem_append] at h
  rcases h with h | h <;> rw [List.mem_filterMap] at h <;>
    obtain ⟨e, he, hsome⟩ := h <;> split at hsome
  · next hev =>
    cases hlk : lookupT tbl e.1 with
    | none => rw [hlk] at hsome; cases hsome
    | some c0 =>
      rw [hlk] at hsome
      cases hsome
      exact ⟨e.1, e, c0.1, c0.2, he,
        by unfold edgeFor; exact decide_eq_true (Or.inl ⟨rfl, hev⟩), by simpa using hlk,
        rfl⟩
  · cases hsome
  · next hev =>
    cases hlk : lookupT tbl e.2.1 with
    | none => rw [hlk] at hsome; cases hsome
    | some c0 =>
      rw [hlk] at hsome
      cases hsome
      exact ⟨e.2.1, e, c0.1, c0.2, he,
        by unfold edgeFor; exact decide_eq_true (Or.inr ⟨hev, rfl⟩), by simpa using hlk,
        rfl⟩
  · cases hsome

theorem cands_complete {α : Type} {add : α → α → α} {wgt : ℕ → α} {G : Graph}
    {tbl : Table α} {u v : Node} {d : α} {wk : List Node}
    (hE : hasEdge G u v = true) (hnd : NoDupE G)
    (hl : lookupT tbl u = some (d, wk)) :
    (add d (wgt (getSqD G u v)), wk ++ [v]) ∈ cands add wgt G tbl v := by
  unfold hasEdge at hE
  rw [List.any_eq_true] at hE
  obtain ⟨e, he, hef⟩ := hE
  have hsq : getSqD G u v = e.2.2 := getSqD_of_edge hnd he hef
  unfold cands
  rw [List.mem_append]
  have hef' := hef
  unfold edgeFor at hef'
  rw [decide_eq_true_eq] at hef'
  rcases hef' with ⟨h1, h2⟩ | ⟨h1, h2⟩
  · left
    rw [List.mem_filterMap]
    refine ⟨e, he, ?_⟩
    rw [if_pos h2, h1, hl]
    rw [hsq]
    rfl
  · right
    rw [List.mem_filterMap]
    refine ⟨e, he, ?_⟩
    rw [if_pos h1, h2, hl]
    rw [hsq]
    rfl

/- ### Walks and their weights -/

/-- A walk in `G` from `s` to `t`: nonempty, ends as stated, consecutive
nodes joined by graph edges. -/
def IsWalkFT (G : Graph) (s t : Node) (p : List Node) : Prop :=
  p.head? = some s ∧ p.getLast? = some t ∧
    p.Chain' (fun u v => hasEdge G u v = true)

instance (G : Graph) (s t : Node) (p : List Node) : Decidable (IsWalkFT G s t p) :=
  inferInstanceAs (Decidable (p.head? = some s ∧ p.getLast? = some t ∧
    p.Chain' (fun u v => hasEdge G u v = true)))

/-- The total weight of a walk: the sum of `wgt` of the stored squared
weights of its consecutive edges. -/
def walkWeight {α : Type} (add : α → α → α) (z : α) (wgt : ℕ → α) (G : Graph) :
    List Node → α
  | [] => z
  | [_] => z
  | u :: v :: rest => add (wgt (getSqD G u v)) (walkWeight add z wgt G (v :: rest))

theorem walkWeight_append_last {α : Type} {z : α} {add : α → α → α}
    {ble : α → α → Bool} (L : WLaws α z add ble) (wgt : ℕ → α) (G : Graph) :
    ∀ (p : List Node) (u v : Node), p.getLast? = some u →
      walkWeight add z wgt G (p ++ [v]) =
        add (walkWeight add z wgt G p) (wgt (getSqD G u v)) := by
  intro p
  induction p with
  | nil => intro u v h; cases h
  | cons a t ih =>
    intro u v h
    cases t with
    | nil =>
      have hau : a = u := by simpa using h
      subst hau
      show add (wgt (getSqD G a v)) (walkWeight add z wgt G [v]) = _
      rw [show walkWeight add z wgt G [v] = z from rfl,
        show walkWeight add z wgt G [a] = z from rfl, L.zr, L.zl]
    | cons b t' =>
      have hlast : (b :: t').getLast? = some u := by
        rwa [List.getLast?_cons_cons] at h
      show add (wgt (getSqD G a b)) (walkWeight add z wgt G ((b :: t') ++ [v])) = _
      rw [ih u v hlast]
      rw [← L.aassoc]
      rfl

theorem getSqD_symm (G : Graph) (u v : Node) : getSqD G u v = getSqD G v u := by
  unfold getSqD findW
  have : edgeFor u v = edgeFor v u := by
    funext e
    exact edgeFor_symm u v e
  rw [this]

theorem walkWeight_reverse {α : Type} {z : α} {add : α → α → α}
    {ble : α → α → Bool} (L : WLaws α z add ble) (wgt : ℕ → α) (G : Graph) :
    ∀ p : List Node, walkWeight add z wgt G p.reverse = walkWeight add z wgt G p := by
  intro p
  induction p with
  | nil => rfl
  | cons a t ih =>
    cases t with
    | nil => rfl
    | cons b t' =>
      rw [List.reverse_cons]
      have hlast : (b :: t').reverse.getLast? = some b := by
        rw [List.getLast?_reverse]
        rfl
      rw [walkWeight_append_last L wgt G _ b a hlast, ih, getSqD_symm G b a,
        L.acomm]
      rfl

/- ### Validity: every table entry is realized by a walk -/

/-- Every table entry holds a walk from the source realizing its weight,
of length bounded by the round count. -/
def ValidT {α : Type} (add : α → α → α) (z : α) (wgt : ℕ → α) (G : Graph)
    (s : Node) (r : ℕ) (tbl : Table α) : Prop :=
  ∀ v c, lookupT tbl v = some c →
    IsWalkFT G s v c.2 ∧ walkWeight add z wgt G c.2 = c.1 ∧ c.2.length ≤ r + 1

theorem hasEdge_of_edgeFor {G : Graph} {u v : Node} {e : Node × Node × ℕ}
    (he : e ∈ G.edges) (hef : edgeFor u v e = true) : hasEdge G u v = true := by
  unfold hasEdge
  rw [List.any_eq_true]
  exact ⟨e, he, hef⟩

theorem validT_init {α : Type} (add : α → α → α) (z : α) (wgt : ℕ → α)
    (G : Graph) (s : Node) : ValidT add z wgt G s 0 (initT z G s) := by
  intro v c hc
  rw [lookupT_initT] at hc
  split at hc
  · split at hc
    · next hvs =>
      subst hvs
      cases hc
      exact ⟨⟨rfl, rfl, List.chain'_singleton v⟩, rfl, by simp⟩
    · cases hc
  · cases hc

theorem validT_step {α : Type} {z : α} {add : α → α → α} {ble : α → α → Bool}
    (L : WLaws α z add ble) (wgt : ℕ → α) {G : Graph} (hnd : NoDupE G)
    {s : Node} {r : ℕ} {tbl : Table α} (h : ValidT add z wgt G s r tbl) :
    ValidT add z wgt G s (r + 1) (stepT add wgt ble G tbl) := by
  intro v c hc
  rw [lookupT_stepT] at hc
  cases hf : tbl.find? (fun e => decide (e.1 = v)) with
  | none => rw [hf] at hc; simp at hc
  | some e =>
    rw [hf] at hc
    have hc' : (cands add wgt G tbl v).foldl (better ble) e.2 = some c := hc
    rcases foldl_better_mem ble _ e.2 c hc' with hcur | hmem
    · have hl : lookupT tbl v = some c := by
        unfold lookupT
        rw [hf]
        exact hcur
      obtain ⟨hw, hwt, hlen⟩ := h v c hl
      exact ⟨hw, hwt, by omega⟩
    · obtain ⟨u, e', d, wk, he', hef, hlk, hceq⟩ := mem_cands_val hmem
      obtain ⟨⟨hh, hl, hch⟩, hwt, hlen⟩ := h u (d, wk) hlk
      subst hceq
      have hwk_ne : wk ≠ [] := by intro h0; rw [h0] at hh; cases hh
      have hE : hasEdge G u v = true := hasEdge_of_edgeFor he' hef
      refine ⟨⟨?_, ?_, ?_⟩, ?_, ?_⟩
      · show (wk ++ [v]).head? = some s
        rw [List.head?_append, hh]
        rfl
      · exact List.getLast?_concat wk
      · show (wk ++ [v]).Chain' _
        rw [List.chain'_append]
        refine ⟨hch, List.chain'_singleton v, ?_⟩
        intro x hx y hy
        have hx' : u = x := by rw [hl] at hx; simpa using hx
        have hy' : v = y := by simpa using hy
        rw [← hx', ← hy']
        exact hE
      · show walkWeight add z wgt G (wk ++ [v]) = add d (wgt e'.2.2)
        rw [walkWeight_append_last L wgt G wk u v hl, hwt,
          getSqD_of_edge hnd he' hef]
      · show (wk ++ [v]).length ≤ r + 1 + 1
        have hlen' : wk.length ≤ r + 1 := hlen
        rw [List.length_append]
        simp only [List.length_singleton]
        omega

/- ### Upper bound: table entries undercut every short-enough walk -/

/-- After `r` rounds the table entry of a walk's endpoint is at most the
walk's weight, for every walk of at most `r` edges from the source. -/
def UBT {α : Type} (add : α → α → α) (z : α) (wgt : ℕ → α) (ble : α → α → Bool)
    (G : Graph) (s : Node) (r : ℕ) (tbl : Table α) : Prop :=
  ∀ v p, IsWalkFT G s v p → p.length ≤ r + 1 →
    ∃ c, lookupT tbl v = some c ∧ ble c.1 (walkWeight add z wgt G p) = true

theorem ubT_init {α : Type} {z : α} {add : α → α → α} {ble : α → α → Bool}
    (L : WLaws α z add ble) (wgt : ℕ → α) (G : Graph) {s : Node}
    (hs : s ∈ G.nodes) : UBT add z wgt ble G s 0 (initT z G s) := by
  intro v p hw hlen
  obtain ⟨hh, hl, _⟩ := hw
  cases p with
  | nil => cases hh
  | cons a t =>
    cases t with
    | nil =>
      have has : a = s := by simpa using hh
      subst has
      have hav : a = v := by simpa using hl
      subst hav
      refine ⟨(z, [a]), ?_, ?_⟩
      · rw [lookupT_initT, if_pos hs, if_pos rfl]
      · exact L.lrefl z
    | cons b t' => simp at hlen

theorem stepT_mono {α : Type} {z : α} {add : α → α → α} {ble : α → α → Bool}
    (L : WLaws α z add ble) (wgt : ℕ → α) (G : Graph) (tbl : Table α)
    {v : Node} {c : α × List Node} (hc : lookupT tbl v = some c) :
    ∃ c', lookupT (stepT add wgt ble G tbl) v = some c' ∧ ble c'.1 c.1 = true := by
  unfold lookupT at hc
  cases hf : tbl.find? (fun e => decide (e.1 = v)) with
  | none => rw [hf] at hc; simp at hc
  | some e =>
    rw [hf] at hc
    have hc2 : e.2 = some c := hc
    have hsome : ((cands add wgt G tbl v).foldl (better ble) e.2).isSome = true := by
      rw [hc2]
      exact foldl_better_isSome_of_some ble _ c
    obtain ⟨c', hc'⟩ := Option.isSome_iff_exists.mp hsome
    refine ⟨c', ?_, ?_⟩
    · rw [lookupT_stepT, hf]
      exact hc'
    · exact (foldl_better_le L _ e.2 c' hc').1 c hc2

theorem find?_isSome_of_keys {α : Type} (tbl : Table α) (v : Node)
    (h : v ∈ tbl.map Prod.fst) :
    (tbl.find? (fun e => decide (e.1 = v))).isSome = true := by
  rw [List.find?_isSome]
  rw [List.mem_map] at h
  obtain ⟨e, he, h1⟩ := h
  exact ⟨e, he, by simp [h1]⟩

theorem ubT_step {α : Type} {z : α} {add : α → α → α} {ble : α → α → Bool}
    (L : WLaws α z add ble) (wgt : ℕ → α) {G : Graph}
    (hwf : WFG G) (hnd : NoDupE G) {s : Node} {r : ℕ} {tbl : Table α}
    (hkeys : tbl.map Prod.fst = G.nodes)
    (hub : UBT add z wgt ble G s r tbl) :
    UBT add z wgt ble G s (r + 1) (stepT add wgt ble G tbl) := by
  intro v p hw hlen
  by_cases hsm : p.length ≤ r + 1
  · obtain ⟨c, hc, hble⟩ := hub v p hw hsm
    obtain ⟨c', hc', hble'⟩ := stepT_mono L wgt G tbl hc
    exact ⟨c', hc', L.ltrans hble' hble⟩
  · obtain ⟨hh, hl, hch⟩ := hw
    have hne : p ≠ [] := by intro h0; rw [h0] at hh; cases hh
    have hdec := List.dropLast_append_getLast hne
    have hv : p.getLast hne = v := by
      have h2 := List.getLast?_eq_getLast p hne
      rw [hl] at h2
      exact (Option.some_inj.mp h2).symm
    rw [hv] at hdec
    have hqlen : p.dropLast.length = p.length - 1 := List.length_dropLast p
    have hqne : p.dropLast ≠ [] := by
      intro h0
      rw [h0] at hdec
      rw [← hdec] at hsm
      simp at hsm
    have hqlast := List.getLast?_eq_getLast p.dropLast hqne
    have hqhead : p.dropLast.head? = some s := by
      rw [← hdec, List.head?_append] at hh
      rw [List.head?_eq_head hqne] at hh ⊢
      cases hh
      rfl
    have hchsplit : p.dropLast.Chain' (fun a b => hasEdge G a b = true) ∧
        hasEdge G (p.dropLast.getLast hqne) v = true := by
      rw [← hdec] at hch
      obtain ⟨h1, _, h3⟩ := List.chain'_append.mp hch
      refine ⟨h1, h3 _ ?_ v rfl⟩
      rw [hqlast]
      rfl
    have hwalkq : IsWalkFT G s (p.dropLast.getLast hqne) p.dropLast :=
      ⟨hqhead, hqlast, hchsplit.1⟩
    obtain ⟨cu, hcu, hbleu⟩ := hub _ p.dropLast hwalkq (by omega)
    have hE := hchsplit.2
    have hcand := @cands_complete _ add wgt G tbl (p.dropLast.getLast hqne) v cu.1 cu.2
      hE hnd
      (show lookupT tbl (p.dropLast.getLast hqne) = some (cu.1, cu.2) from hcu)
    have hvnode : v ∈ G.nodes := by
      unfold hasEdge at hE
      rw [List.any_eq_true] at hE
      obtain ⟨e, he, hef⟩ := hE
      unfold edgeFor at hef
      rw [decide_eq_true_eq] at hef
      obtain ⟨he1, he2⟩ := hwf e he
      rcases hef with ⟨_, h2⟩ | ⟨h1, _⟩
      · rw [← h2]; exact he2
      · rw [← h1]; exact he1
    have hfs : (tbl.find? (fun e => decide (e.1 = v))).isSome = true :=
      find?_isSome_of_keys tbl v (by rw [hkeys]; exact hvnode)
    obtain ⟨e0, hfe0⟩ := Option.isSome_iff_exists.mp hfs
    have hfolds : ((cands add wgt G tbl v).foldl (better ble) e0.2).isSome = true :=
      foldl_better_isSome_of_mem ble _ e0.2 _ hcand
    obtain ⟨c', hc'⟩ := Option.isSome_iff_exists.mp hfolds
    refine ⟨c', ?_, ?_⟩
    · rw [lookupT_stepT, hfe0]
      exact hc'
    · have hble1 := (foldl_better_le L _ e0.2 c' hc').2 _ hcand
      have hwp : walkWeight add z wgt G p =
          add (walkWeight add z wgt G p.dropLast)
            (wgt (getSqD G (p.dropLast.getLast hqne) v)) := by
        conv_lhs => rw [← hdec]
        exact walkWeight_append_last L wgt G _ _ v hqlast
      rw [hwp]
      exact L.ltrans hble1 (L.lmono _ hbleu)

/- ### The invariants hold of the full relaxation -/

theorem stepNT_valid {α : Type} {z : α} {add : α → α → α} {ble : α → α → Bool}
    (L : WLaws α z add ble) (wgt : ℕ → α) {G : Graph} (hnd : NoDupE G)
    {s : Node} (n : ℕ) :
    ∀ (r : ℕ) (tbl : Table α), ValidT add z wgt G s r tbl →
      ValidT add z wgt G s (r + n) (stepNT add wgt ble G n tbl) := by
  induction n with
  | zero => intro r tbl h; exact h
  | succ k ih =>
    intro r tbl h
    rw [show r + (k + 1) = (r + 1) + k by omega]
    exact ih (r + 1) _ (validT_step L wgt hnd h)

theorem stepNT_ub {α : Type} {z : α} {add : α → α → α} {ble : α → α → Bool}
    (L : WLaws α z add ble) (wgt : ℕ → α) {G : Graph}
    (hwf : WFG G) (hnd : NoDupE G) {s : Node} (n : ℕ) :
    ∀ (r : ℕ) (tbl : Table α), tbl.map Prod.fst = G.nodes →
      UBT add z wgt ble G s r tbl →
      UBT add z wgt ble G s (r + n) (stepNT add wgt ble G n tbl) := by
  induction n with
  | zero => intro r tbl _ h; exact h
  | succ k ih =>
    intro r tbl hkeys h
    rw [show r + (k + 1) = (r + 1) + k by omega]
    refine ih (r + 1) _ ?_ (ubT_step L wgt hwf hnd hkeys h)
    rw [stepT_keys]
    exact hkeys

theorem bfT_valid {α : Type} {z : α} {add : α → α → α} {ble : α → α → Bool}
    (L : WLaws α z add ble) (wgt : ℕ → α) {G : Graph} (hnd : NoDupE G)
    (s : Node) :
    ValidT add z wgt G s G.nodes.length (bfT z add wgt ble G s) := by
  unfold bfT
  have h := stepNT_valid L wgt hnd G.nodes.length 0 (initT z G s)
    (validT_init add z wgt G s)
  rw [show 0 + G.nodes.length = G.nodes.length by omega] at h
  exact h

theorem bfT_ub {α : Type} {z : α} {add : α → α → α} {ble : α → α → Bool}
    (L : WLaws α z add ble) (wgt : ℕ → α) {G : Graph}
    (hwf : WFG G) (hnd : NoDupE G) {s : Node} (hs : s ∈ G.nodes) :
    UBT add z wgt ble G s G.nodes.length (bfT z add wgt ble G s) := by
  unfold bfT
  have h := stepNT_ub L wgt hwf hnd G.nodes.length 0 (initT z G s)
    (initT_keys z G s) (ubT_init L wgt G hs)
  rw [show 0 + G.nodes.length = G.nodes.length by omega] at h
  exact h

theorem bfT_keys {α : Type} (z : α) (add : α → α → α) (wgt : ℕ → α)
    (ble : α → α → Bool) (G : Graph) (s : Node) :
    (bfT z add wgt ble G s).map Prod.fst = G.nodes := by
  unfold bfT
  rw [stepNT_keys, initT_keys]

/- ### `find_farthest_nodes` and `nx.shortest_path` -/

/-- The weight of one skeleton edge in `a + b·√2` form: stored squared
distance `2` gives `√2`, anything else (on skeleton graphs only `1`
occurs) gives itself.  On skeleton-built graphs the squared weights are
exactly `1` and `2`, where this agrees with `Real.sqrt`. -/
def sqw (sq : ℕ) : Wt := if sq = 2 then (0, 1) else (sq, 0)

/-- The `a + b·√2` relaxation table from source `s`. -/
def bfTW (G : Graph) (s : Node) : Table Wt := bfT (0, 0) wadd sqw wle G s

/-- The unit-weight (hop-counting) relaxation table from source `s`. -/
def bfTN (G : Graph) (s : Node) : Table ℕ :=
  bfT 0 Nat.add (fun _ => 1) (fun a b => decide (a ≤ b)) G s

/-- The distance dictionary `nx.single_source_dijkstra_path_length(G, s)`:
keys are exactly the nodes reachable from `s`, in `G.nodes` order. -/
def dijkstraLengths (G : Graph) (s : Node) : List (Node × Wt) :=
  (bfTW G s).filterMap (fun e => e.2.map (fun c => (e.1, c.1)))

/-- One step of Python's `max(…, key=…)`: keep the incumbent on ties. -/
def amaxf (acc : Option (Node × Wt)) (e : Node × Wt) : Option (Node × Wt) :=
  match acc with
  | none => some e
  | some a => if wle e.2 a.2 then some a else some e

/-- `max(distances, key=distances.get)`: the first key attaining the
maximal value. -/
def argmaxD (l : List (Node × Wt)) : Option (Node × Wt) :=
  l.foldl amaxf none

/-- `find_farthest_nodes` from `src/utils/graph_utils.py`: raise on an
empty graph, return the single node twice on a one-node graph, otherwise
run the two Dijkstra sweeps from the first constructed node and take the
farthest node of each sweep.  The inner `.error` branches are unreachable
(the sweep dictionary always contains its source). -/
def find_farthest_nodes (G : Graph) : Except PErr (Node × Node) :=
  match G.nodes with
  | [] => .error .graphEmpty
  | [v] => .ok (v, v)
  | v0 :: _ :: _ =>
    match argmaxD (dijkstraLengths G v0) with
    | none => .error .graphEmpty
    | some (n1, _) =>
      match argmaxD (dijkstraLengths G n1) with
      | none => .error .graphEmpty
      | some (n2, _) => .ok (n1, n2)

/-- `nx.shortest_path(G, s, t)` as the detector calls it — with no
`weight=` argument, so it is a breadth-first search returning a path with
the minimum NUMBER of edges, ignoring the stored weights; `none` models
the `NetworkXNoPath` exception. -/
def nx_shortest_path (G : Graph) (s t : Node) : Option (List Node) :=
  (lookupT (bfTN G s) t).map (fun c => c.2)

/- ### argmax lemmas -/

theorem amaxf_none (e : Node × Wt) : amaxf none e = some e := rfl

theorem amaxf_some (a e : Node × Wt) :
    amaxf (some a) e = if wle e.2 a.2 then some a else some e := rfl

theorem foldl_amaxf_mem (l : List (Node × Wt)) :
    ∀ acc e, l.foldl amaxf acc = some e → acc = some e ∨ e ∈ l := by
  induction l with
  | nil => intro acc e h; exact Or.inl h
  | cons x t ih =>
    intro acc e h
    rw [List.foldl_cons] at h
    rcases ih (amaxf acc x) e h with h' | h'
    · cases acc with
      | none =>
        rw [amaxf_none] at h'
        cases h'
        exact Or.inr (by simp)
      | some a =>
        rw [amaxf_some] at h'
        split at h'
        · cases h'; exact Or.inl rfl
        · cases h'; exact Or.inr (by simp)
    · exact Or.inr (by simp [h'])

theorem foldl_amaxf_ge (l : List (Node × Wt)) :
    ∀ acc e, l.foldl amaxf acc = some e →
      (∀ a, acc = some a → wle a.2 e.2 = true) ∧
      (∀ x ∈ l, wle x.2 e.2 = true) := by
  induction l with
  | nil =>
    intro acc e h
    refine ⟨?_, ?_⟩
    · intro a ha
      rw [ha] at h
      cases h
      exact wle_refl _
    · intro x hx; cases hx
  | cons x t ih =>
    intro acc e h
    rw [List.foldl_cons] at h
    obtain ⟨ih1, ih2⟩ := ih (amaxf acc x) e h
    have hx : wle x.2 e.2 = true := by
      cases acc with
      | none => exact ih1 x (amaxf_none x)
      | some a =>
        rw [amaxf_some] at ih1
        by_cases hb : wle x.2 a.2 = true
        · rw [if_pos hb] at ih1
          exact wle_trans hb (ih1 a rfl)
        · rw [if_neg hb] at ih1
          exact ih1 x rfl
    refine ⟨?_, ?_⟩
    · intro a ha
      subst ha
      rw [amaxf_some] at ih1
      by_cases hb : wle x.2 a.2 = true
      · rw [if_pos hb] at ih1
        exact ih1 a rfl
      · rw [if_neg hb] at ih1
        have hax : wle a.2 x.2 = true := (wle_total x.2 a.2).resolve_left hb
        exact wle_trans hax (ih1 x rfl)
    · intro y hy
      rcases List.mem_cons.mp hy with rfl | hy'
      · exact hx
      · exact ih2 y hy'

theorem foldl_amaxf_isSome_of_some (l : List (Node × Wt)) :
    ∀ a, (l.foldl amaxf (some a)).isSome = true := by
  induction l with
  | nil => intro a; rfl
  | cons x t ih =>
    intro a
    rw [List.foldl_cons, amaxf_some]
    split <;> exact ih _

theorem argmaxD_isSome {l : List (Node × Wt)} (h : l ≠ []) :
    (argmaxD l).isSome = true := by
  cases l with
  | nil => exact absurd rfl h
  | cons x t =>
    unfold argmaxD
    rw [List.foldl_cons, amaxf_none]
    exact foldl_amaxf_isSome_of_some t x

theorem argmaxD_mem {l : List (Node × Wt)} {e : Node × Wt}
    (h : argmaxD l = some e) : e ∈ l := by
  rcases foldl_amaxf_mem l none e h with h' | h'
  · cases h'
  · exact h'

theorem argmaxD_ge {l : List (Node × Wt)} {e : Node × Wt}
    (h : argmaxD l = some e) : ∀ x ∈ l, wle x.2 e.2 = true :=
  (foldl_amaxf_ge l none e h).2

/- ### Dictionary access lemmas -/

theorem lookupT_of_mem_nodupkeys {α : Type} (tbl : Table α)
    (hnd : (tbl.map Prod.fst).Nodup) {e : Node × Option (α × List Node)}
    (he : e ∈ tbl) : lookupT tbl e.1 = e.2 := by
  induction tbl with
  | nil => cases he
  | cons x t ih =>
    rcases List.mem_cons.mp he with rfl | he'
    · unfold lookupT
      rw [List.find?_cons_of_pos _ (by simp)]
      rfl
    · rw [List.map_cons, List.nodup_cons] at hnd
      have hx1 : x.1 ≠ e.1 := by
        intro hcontra
        exact hnd.1 (hcontra ▸ List.mem_map_of_mem Prod.fst he')
      unfold lookupT at ih ⊢
      rw [List.find?_cons_of_neg _ (by simp [hx1])]
      exact ih hnd.2 he'

theorem mem_keys_of_lookupT_some {α : Type} {tbl : Table α} {v : Node}
    {c : α × List Node} (h : lookupT tbl v = some c) : v ∈ tbl.map Prod.fst := by
  unfold lookupT at h
  cases hf : tbl.find? (fun e => decide (e.1 = v)) with
  | none => rw [hf] at h; simp at h
  | some e =>
    have he1 : e.1 = v := find?_key_eq tbl v hf
    rw [← he1]
    exact List.mem_map_of_mem Prod.fst (List.mem_of_find?_eq_some hf)

theorem mem_dijkstra_of_lookup {G : Graph} {s v : Node} {c : Wt × List Node}
    (h : lookupT (bfTW G s) v = some c) : (v, c.1) ∈ dijkstraLengths G s := by
  unfold lookupT at h
  cases hf : (bfTW G s).find? (fun e => decide (e.1 = v)) with
  | none => rw [hf] at h; simp at h
  | some e =>
    rw [hf] at h
    have he2 : e.2 = some c := h
    have he1 : e.1 = v := find?_key_eq _ v hf
    unfold dijkstraLengths
    rw [List.mem_filterMap]
    exact ⟨e, List.mem_of_find?_eq_some hf, by rw [he2, he1]; rfl⟩

theorem lookup_of_mem_dijkstra {G : Graph} {s v : Node} {d : Wt}
    (hnodup : G.nodes.Nodup) (h : (v, d) ∈ dijkstraLengths G s) :
    ∃ wk, lookupT (bfTW G s) v = some (d, wk) := by
  unfold dijkstraLengths at h
  rw [List.mem_filterMap] at h
  obtain ⟨e, he, hmap⟩ := h
  cases he2 : e.2 with
  | none => rw [he2] at hmap; cases hmap
  | some c =>
    rw [he2] at hmap
    have h1 : e.1 = v ∧ c.1 = d := by
      cases hmap
      exact ⟨rfl, rfl⟩
    have hkeys : ((bfTW G s).map Prod.fst).Nodup := by
      rw [bfTW, bfT_keys]
      exact hnodup
    have := lookupT_of_mem_nodupkeys (bfTW G s) hkeys he
    rw [h1.1, he2] at this
    exact ⟨c.2, by rw [this, ← h1.2]⟩

theorem stepNT_pres_some {α : Type} {z : α} {add : α → α → α} {ble : α → α → Bool}
    (L : WLaws α z add ble) (wgt : ℕ → α) (G : Graph) (n : ℕ) :
    ∀ (tbl : Table α) (v : Node) (c : α × List Node), lookupT tbl v = some c →
      ∃ c', lookupT (stepNT add wgt ble G n tbl) v = some c' := by
  induction n with
  | zero => intro tbl v c h; exact ⟨c, h⟩
  | succ k ih =>
    intro tbl v c h
    obtain ⟨c', hc', _⟩ := stepT_mono L wgt G tbl h
    exact ih _ v c' hc'

theorem bfT_source_some {α : Type} {z : α} {add : α → α → α} {ble : α → α → Bool}
    (L : WLaws α z add ble) (wgt : ℕ → α) {G : Graph} {s : Node}
    (hs : s ∈ G.nodes) :
    ∃ c, lookupT (bfT z add wgt ble G s) s = some c := by
  unfold bfT
  have hinit : lookupT (initT z G s) s = some (z, [s]) := by
    rw [lookupT_initT, if_pos hs, if_pos rfl]
  obtain ⟨c, hc⟩ := stepNT_pres_some L wgt G G.nodes.length (initT z G s) s _ hinit
  exact ⟨c, hc⟩

theorem isWalkFT_reverse {G : Graph} {s t : Node} {p : List Node}
    (h : IsWalkFT G s t p) : IsWalkFT G t s p.reverse := by
  obtain ⟨hh, hl, hch⟩ := h
  refine ⟨?_, ?_, ?_⟩
  · rw [List.head?_reverse]
    exact hl
  · rw [List.getLast?_reverse]
    exact hh
  · rw [List.chain'_reverse]
    refine hch.imp ?_
    intro a b hab
    show hasEdge G b a = true
    rw [hasEdge_symm]
    exact hab

theorem build_nodes_ne_nil {m : Mask} {G : Graph}
    (hok : build_graph_from_skeleton m = .ok G) : G.nodes ≠ [] := by
  rw [build_ok_nodes hok]
  rw [build_graph_from_skeleton] at hok
  split at hok
  · cases hok
  · next h =>
    rw [List.isEmpty_iff] at h
    exact h

/-- Inversion of a successful `find_farthest_nodes` run on any nonempty
graph with well-formed, duplicate-free edges: it succeeds, the first
endpoint is a node, and the second endpoint is reachable from the first
by a walk of at most `|V|` edges (the realizing walk of the second
Dijkstra sweep). -/
theorem find_farthest_ok_full {G : Graph} (hnd : NoDupE G)
    (hnodup : G.nodes.Nodup) (hne : G.nodes ≠ []) :
    ∃ n1 n2, find_farthest_nodes G = .ok (n1, n2) ∧ n1 ∈ G.nodes ∧
      ∃ wk, IsWalkFT G n1 n2 wk ∧ wk.length ≤ G.nodes.length + 1 := by
  cases hG : G.nodes with
  | nil => exact absurd hG hne
  | cons v0 rest =>
    cases rest with
    | nil =>
      refine ⟨v0, v0, ?_, ?_, [v0], ⟨rfl, rfl, List.chain'_singleton v0⟩, by simp⟩
      · unfold find_farthest_nodes
        rw [hG]
      · simp
    | cons v1 rest' =>
      have hv0 : v0 ∈ G.nodes := by rw [hG]; simp
      obtain ⟨c0, hc0⟩ := bfT_source_some wlaws_W sqw hv0
      have hmem0 : (v0, c0.1) ∈ dijkstraLengths G v0 := mem_dijkstra_of_lookup hc0
      have hne0 : dijkstraLengths G v0 ≠ [] := by
        intro h0; rw [h0] at hmem0; cases hmem0
      obtain ⟨e1, he1⟩ := Option.isSome_iff_exists.mp (argmaxD_isSome hne0)
      obtain ⟨n1, d1⟩ := e1
      obtain ⟨wk1, hwk1⟩ := lookup_of_mem_dijkstra hnodup (argmaxD_mem he1)
      have hn1 : n1 ∈ G.nodes := by
        have := mem_keys_of_lookupT_some hwk1
        rwa [bfTW, bfT_keys] at this
      obtain ⟨c1, hc1⟩ := bfT_source_some wlaws_W sqw hn1
      have hmem1 : (n1, c1.1) ∈ dijkstraLengths G n1 := mem_dijkstra_of_lookup hc1
      have hne1 : dijkstraLengths G n1 ≠ [] := by
        intro h0; rw [h0] at hmem1; cases hmem1
      obtain ⟨e2, he2⟩ := Option.isSome_iff_exists.mp (argmaxD_isSome hne1)
      obtain ⟨n2, d2⟩ := e2
      obtain ⟨wk2, hwk2⟩ := lookup_of_mem_dijkstra hnodup (argmaxD_mem he2)
      have hval2 := bfT_valid wlaws_W sqw hnd n1 n2 (d2, wk2) hwk2
      refine ⟨n1, n2, ?_, hG ▸ hn1, wk2, hval2.1, hG ▸ hval2.2.2⟩
      unfold find_farthest_nodes
      rw [hG]
      dsimp only
      rw [he1]
      dsimp only
      rw [he2]

/-- C2: for every skeleton graph (built from any mask, connected or not),
`find_farthest_nodes` succeeds and returns two nodes of the same
connected component — node2 is picked among the keys of the Dijkstra
dictionary of node1, i.e. among nodes at finite distance — so the
subsequent `nx.shortest_path(G, n1, n2)` call always finds a path and
the per-object `NetworkXNoPath` rejection branch is unreachable. -/
theorem find_farthest_nodes_no_nopath (m : Mask) (G : Graph)
    (hok : build_graph_from_skeleton m = .ok G) :
    ∃ n1 n2 p, find_farthest_nodes G = .ok (n1, n2) ∧
      nx_shortest_path G n1 n2 = some p ∧ IsWalkFT G n1 n2 p := by
  have hnd := (build_ok_edges hok).2
  have hwf := build_WFG hok
  have hnodup : G.nodes.Nodup := by
    rw [build_ok_nodes hok]
    exact points_nodup m
  obtain ⟨n1, n2, hff, hn1, wk, hwk, hlen⟩ :=
    find_farthest_ok_full hnd hnodup (build_nodes_ne_nil hok)
  obtain ⟨c, hc, _⟩ := bfT_ub wlaws_N (fun _ => 1) hwf hnd hn1 n2 wk hwk hlen
  refine ⟨n1, n2, c.2, hff, ?_, ?_⟩
  · unfold nx_shortest_path
    rw [show lookupT (bfTN G n1) n2 = some c from hc]
    rfl
  · exact (bfT_valid wlaws_N (fun _ => 1) hnd n1 n2 c hc).1

/-- Concrete mask with a disconnected two-component skeleton, used to
instantiate `find_farthest_nodes_no_nopath`. -/
def mW2 : Mask := ⟨1, 4, fun _ x => decide (x ≠ 1)⟩

/-- The graph built from `mW2`. -/
def GW2 : Graph := (build_graph_from_skeleton mW2).toOption.getD ⟨[], []⟩

/-- Witness: `find_farthest_nodes_no_nopath` instantiated on the concrete
disconnected mask `mW2`. -/
theorem find_farthest_nodes_no_nopath_witness :
    ∃ n1 n2 p, find_farthest_nodes GW2 = .ok (n1, n2) ∧
      nx_shortest_path GW2 n1 n2 = some p ∧ IsWalkFT GW2 n1 n2 p :=
  find_farthest_nodes_no_nopath mW2 GW2 (by rfl)

/-- C4: double-sweep monotonicity.  For a skeleton graph with at least two
nodes, with `start` the first node in construction order, `node1` the
farthest node of the first Dijkstra sweep and `node2` the farthest node of
the second sweep, the distance recorded for `node2` (the node1-to-node2
shortest-path distance) is at least the distance recorded for `node1` in
the first sweep (the start-to-node1 shortest-path distance). -/
theorem double_sweep_monotone (m : Mask) (G : Graph)
    (hok : build_graph_from_skeleton m = .ok G)
    (v0 v1 : Node) (rest : List Node) (hnodes : G.nodes = v0 :: v1 :: rest)
    (n1 n2 : Node) (d1 d2 : Wt)
    (h1 : argmaxD (dijkstraLengths G v0) = some (n1, d1))
    (h2 : argmaxD (dijkstraLengths G n1) = some (n2, d2)) :
    toRealW d1 ≤ toRealW d2 := by
  have hnd := (build_ok_edges hok).2
  have hwf := build_WFG hok
  have hnodup : G.nodes.Nodup := by
    rw [build_ok_nodes hok]
    exact points_nodup m
  have hv0 : v0 ∈ G.nodes := by rw [hnodes]; simp
  obtain ⟨wk1, hwk1⟩ := lookup_of_mem_dijkstra hnodup (argmaxD_mem h1)
  have hval1 := bfT_valid wlaws_W sqw hnd v0 n1 (d1, wk1) hwk1
  have hn1 : n1 ∈ G.nodes := by
    have := mem_keys_of_lookupT_some hwk1
    rwa [bfTW, bfT_keys] at this
  have hrev1 : IsWalkFT G n1 v0 wk1.reverse := isWalkFT_reverse hval1.1
  have hlen1 : wk1.reverse.length ≤ G.nodes.length + 1 := by
    rw [List.length_reverse]
    exact hval1.2.2
  obtain ⟨c0, hc0, _⟩ := bfT_ub wlaws_W sqw hwf hnd hn1 v0 wk1.reverse hrev1 hlen1
  have hvalc0 := bfT_valid wlaws_W sqw hnd n1 v0 c0 hc0
  have hrev0 : IsWalkFT G v0 n1 c0.2.reverse := isWalkFT_reverse hvalc0.1
  have hlen0 : c0.2.reverse.length ≤ G.nodes.length + 1 := by
    rw [List.length_reverse]
    exact hvalc0.2.2
  obtain ⟨c', hc', hble'⟩ := bfT_ub wlaws_W sqw hwf hnd hv0 n1 c0.2.reverse hrev0 hlen0
  have hwrev : walkWeight wadd (0, 0) sqw G c0.2.reverse = c0.1 := by
    rw [walkWeight_reverse wlaws_W sqw G]
    exact hvalc0.2.1
  rw [hwrev] at hble'
  have hcc : c' = (d1, wk1) := Option.some_inj.mp (hc'.symm.trans hwk1)
  have hd1 : wle d1 c0.1 = true := by
    rw [hcc] at hble'
    exact hble'
  have hd2 : wle c0.1 d2 = true :=
    argmaxD_ge h2 (v0, c0.1) (mem_dijkstra_of_lookup hc0)
  exact le_trans ((wle_iff _ _).mp hd1) ((wle_iff _ _).mp hd2)

theorem walkWeight_nat (G : Graph) :
    ∀ p : List Node, walkWeight Nat.add 0 (fun _ => 1) G p = p.length - 1 := by
  intro p
  induction p with
  | nil => rfl
  | cons a t ih =>
    cases t with
    | nil => rfl
    | cons b t' =>
      show Nat.add 1 (walkWeight Nat.add 0 (fun _ => 1) G (b :: t')) =
        (a :: b :: t').length - 1
      rw [ih]
      simp [List.length_cons]
      omega

/-- C1 (amended): for every skeleton graph and every endpoint pair that
`find_farthest_nodes` returns, the `nx.shortest_path(G, n1, n2)` call of
the detector (made without a `weight=` argument) returns a walk from
node1 to node2 that minimizes the NUMBER of edges over all node1-to-node2
walks; it does not in general minimize the sum of edge weights
(see `nx_shortest_path_not_weight_minimal`). -/
theorem nx_shortest_path_min_edges (m : Mask) (G : Graph)
    (hok : build_graph_from_skeleton m = .ok G) (n1 n2 : Node)
    (hff : find_farthest_nodes G = .ok (n1, n2)) :
    ∃ p, nx_shortest_path G n1 n2 = some p ∧ IsWalkFT G n1 n2 p ∧
      ∀ q, IsWalkFT G n1 n2 q → p.length ≤ q.length := by
  have hnd := (build_ok_edges hok).2
  have hwf := build_WFG hok
  have hnodup : G.nodes.Nodup := by
    rw [build_ok_nodes hok]
    exact points_nodup m
  obtain ⟨n1', n2', hff', hn1', wk, hwk, hlen⟩ :=
    find_farthest_ok_full hnd hnodup (build_nodes_ne_nil hok)
  have heq : (n1', n2') = (n1, n2) := by
    have := hff'.symm.trans hff
    simpa using this
  rw [Prod.ext_iff] at heq
  obtain ⟨e1, e2⟩ := heq
  subst e1; subst e2
  obtain ⟨c, hc, _⟩ := bfT_ub wlaws_N (fun _ => 1) hwf hnd hn1' n2' wk hwk hlen
  have hval := bfT_valid wlaws_N (fun _ => 1) hnd n1' n2' c hc
  refine ⟨c.2, ?_, hval.1, ?_⟩
  · unfold nx_shortest_path
    rw [show lookupT (bfTN G n1') n2' = some c from hc]
    rfl
  · intro q hq
    have hpne : c.2 ≠ [] := by
      intro h0
      rw [h0] at hval
      cases hval.1.1
    have hqne : q ≠ [] := by
      intro h0
      rw [h0] at hq
      cases hq.1
    by_cases hql : q.length ≤ G.nodes.length + 1
    · obtain ⟨c', hc', hble⟩ := bfT_ub wlaws_N (fun _ => 1) hwf hnd hn1' n2' q hq hql
      have hcc : c' = c := Option.some_inj.mp (hc'.symm.trans hc)
      subst hcc
      rw [decide_eq_true_eq] at hble
      rw [walkWeight_nat] at hble
      have hc1 : walkWeight Nat.add 0 (fun _ => 1) G c'.2 = c'.1 := hval.2.1
      rw [walkWeight_nat] at hc1
      have h1 : 1 ≤ c'.2.length := List.length_pos.mpr hpne
      have h2 : 1 ≤ q.length := List.length_pos.mpr hqne
      omega
    · have := hval.2.2
      omega

/- ### Concrete instances for the endpoint claims -/

/-- A 1×3 all-on mask: a three-pixel horizontal line. -/
def mW4 : Mask := ⟨1, 3, fun _ _ => true⟩

/-- The graph built from `mW4`. -/
def GW4 : Graph := (build_graph_from_skeleton mW4).toOption.getD ⟨[], []⟩

/-- Witness: `double_sweep_monotone` instantiated on the three-pixel line,
where both sweeps record the distance `2`. -/
theorem double_sweep_monotone_witness : toRealW (2, 0) ≤ toRealW (2, 0) :=
  double_sweep_monotone mW4 GW4 (by rfl) (0, 0) (0, 1) [(0, 2)] (by rfl)
    (0, 2) (0, 0) (2, 0) (2, 0) (by rfl) (by rfl)

/-- Witness: `nx_shortest_path_min_edges` instantiated on the three-pixel
line and the endpoint pair its `find_farthest_nodes` run returns. -/
theorem nx_shortest_path_min_edges_witness :
    ∃ p, nx_shortest_path GW4 (0, 2) (0, 0) = some p ∧
      IsWalkFT GW4 (0, 2) (0, 0) p ∧
      ∀ q, IsWalkFT GW4 (0, 2) (0, 0) q → p.length ≤ q.length :=
  nx_shortest_path_min_edges mW4 GW4 (by rfl) (0, 2) (0, 0) (by rfl)

/- ### The C1 counterexample: fewest-edges is not minimum-weight -/

/-- On-pixels of the counterexample mask: a 6-step diagonal zigzag from
`(3,0)` to `(5,6)` (the unique fewest-edges route between them, total
weight `6·√2 ≈ 8.485`) alongside a longer 8-step but lighter route along
row 3 (total weight `6 + √2 ≈ 7.414`). -/
def pixListC1 : List (ℕ × ℕ) :=
  [(3, 0), (3, 1), (3, 2), (3, 3), (3, 4), (3, 5), (3, 6),
   (4, 1), (4, 6), (5, 2), (5, 4), (5, 6), (6, 3), (6, 5)]

/-- The counterexample mask. -/
def mC1 : Mask := ⟨7, 7, fun y x => decide ((y, x) ∈ pixListC1)⟩

/-- The graph built from `mC1`, as an explicit literal (checked against
the builder by `GC1_build`). -/
def GC1 : Graph :=
  ⟨[(3, 0), (3, 1), (3, 2), (3, 3), (3, 4), (3, 5), (3, 6),
    (4, 1), (4, 6), (5, 2), (5, 4), (5, 6), (6, 3), (6, 5)],
   [((3, 0), (3, 1), 1), ((3, 0), (4, 1), 2), ((3, 1), (4, 1), 1),
    ((3, 1), (3, 2), 1), ((3, 2), (3, 3), 1), ((3, 2), (4, 1), 2),
    ((3, 3), (3, 4), 1), ((3, 4), (3, 5), 1), ((3, 5), (3, 6), 1),
    ((3, 5), (4, 6), 2), ((3, 6), (4, 6), 1), ((4, 1), (5, 2), 2),
    ((4, 6), (5, 6), 1), ((5, 2), (6, 3), 2), ((5, 4), (6, 3), 2),
    ((5, 4), (6, 5), 2), ((5, 6), (6, 5), 2)]⟩

/-- The walk `nx.shortest_path` returns on `GC1`: all-diagonal, 6 edges. -/
def pC1 : List Node := [(5, 6), (6, 5), (5, 4), (6, 3), (5, 2), (4, 1), (3, 0)]

/-- A competing walk along row 3: 7 edges but strictly lighter. -/
def qC1 : List Node :=
  [(5, 6), (4, 6), (3, 5), (3, 4), (3, 3), (3, 2), (3, 1), (3, 0)]

/-- The real-valued total weight of a walk: the sum of the stored
(`√` of squared-distance) edge weights along it. -/
noncomputable def realWalkLen (G : Graph) : List Node → ℝ
  | [] => 0
  | [_] => 0
  | u :: v :: rest => Real.sqrt (getSqD G u v) + realWalkLen G (v :: rest)

set_option maxRecDepth 4000000 in
set_option maxHeartbeats 4000000 in
theorem GC1_build : build_graph_from_skeleton mC1 = .ok GC1 := by rfl

set_option maxRecDepth 4000000 in
set_option maxHeartbeats 4000000 in
theorem GC1_ff : find_farthest_nodes GC1 = .ok ((5, 6), (3, 0)) := by rfl

set_option maxRecDepth 4000000 in
set_option maxHeartbeats 4000000 in
theorem GC1_sp : nx_shortest_path GC1 (5, 6) (3, 0) = some pC1 := by rfl

theorem GC1_qwalk : IsWalkFT GC1 (5, 6) (3, 0) qC1 := by
  refine ⟨rfl, rfl, ?_⟩
  show List.Chain' (fun u v => hasEdge GC1 u v = true) qC1
  rw [qC1]
  simp only [List.chain'_cons, List.chain'_singleton, and_true]
  exact ⟨by rfl, by rfl, by rfl, by rfl, by rfl, by rfl, by rfl⟩

set_option maxRecDepth 4000000 in
set_option maxHeartbeats 4000000 in
/-- C1 is false as stated: on the skeleton graph of `mC1`,
`find_farthest_nodes` returns the endpoints `(5,6)` and `(3,0)`, and the
path the detector then extracts with `nx.shortest_path(G, n1, n2)` (no
`weight=` argument) is the all-diagonal walk `pC1` of total weight `6·√2`,
while the node1-to-node2 walk `qC1` has strictly smaller total weight
`6 + √2`: the extracted path does not minimize the sum of edge weights. -/
theorem nx_shortest_path_not_weight_minimal :
    build_graph_from_skeleton mC1 = .ok GC1 ∧
    find_farthest_nodes GC1 = .ok ((5, 6), (3, 0)) ∧
    nx_shortest_path GC1 (5, 6) (3, 0) = some pC1 ∧
    IsWalkFT GC1 (5, 6) (3, 0) qC1 ∧
    realWalkLen GC1 qC1 < realWalkLen GC1 pC1 := by
  refine ⟨GC1_build, GC1_ff, GC1_sp, GC1_qwalk, ?_⟩
  have g1 : getSqD GC1 (5, 6) (6, 5) = 2 := by rfl
  have g2 : getSqD GC1 (6, 5) (5, 4) = 2 := by rfl
  have g3 : getSqD GC1 (5, 4) (6, 3) = 2 := by rfl
  have g4 : getSqD GC1 (6, 3) (5, 2) = 2 := by rfl
  have g5 : getSqD GC1 (5, 2) (4, 1) = 2 := by rfl
  have g6 : getSqD GC1 (4, 1) (3, 0) = 2 := by rfl
  have k1 : getSqD GC1 (5, 6) (4, 6) = 1 := by rfl
  have k2 : getSqD GC1 (4, 6) (3, 5) = 2 := by rfl
  have k3 : getSqD GC1 (3, 5) (3, 4) = 1 := by rfl
  have k4 : getSqD GC1 (3, 4) (3, 3) = 1 := by rfl
  have k5 : getSqD GC1 (3, 3) (3, 2) = 1 := by rfl
  have k6 : getSqD GC1 (3, 2) (3, 1) = 1 := by rfl
  have k7 : getSqD GC1 (3, 1) (3, 0) = 1 := by rfl
  have hp : realWalkLen GC1 pC1 = 6 * Real.sqrt 2 := by
    simp only [pC1, realWalkLen, g1, g2, g3, g4, g5, g6]
    push_cast
    ring
  have hq : realWalkLen GC1 qC1 = 6 + Real.sqrt 2 := by
    simp only [qC1, realWalkLen, k1, k2, k3, k4, k5, k6, k7]
    push_cast
    rw [Real.sqrt_one]
    ring
  rw [hp, hq]
  have hs : (6 / 5 : ℝ) < Real.sqrt 2 := by
    rw [Real.lt_sqrt (by norm_num)]
    norm_num
  linarith

/- ### `simplify_path`: Douglas-Peucker simplification

The source wraps `shapely.geometry.LineString.simplify(tolerance,
preserve_topology=False)`, which is GEOS's Douglas-Peucker line
simplifier.  That library code is not part of this repository, so it is
modelled from the spec: recursively keep the interior point farthest from
the chord of the current section when its distance exceeds the tolerance,
otherwise collapse the section to its two endpoints; the first and last
point are always kept.  Distances are compared through squares, which is
exact in `ℚ` and order-equivalent to GEOS's float comparison for a
nonnegative tolerance. -/

/-- A (possibly non-integer) path point. -/
abbrev Pt : Type := ℚ × ℚ

/-- Squared distance of two points. -/
def sqDistQ (p q : Pt) : ℚ := (p.1 - q.1) ^ 2 + (p.2 - q.2) ^ 2

/-- Modelled from the spec: `LineString.simplify` is the external
shapely/GEOS library.  Squared distance from `p` to the segment from `a`
to `b` (GEOS's point-to-segment distance, squared). -/
def sqSegDist (p a b : Pt) : ℚ :=
  let dx := b.1 - a.1
  let dy := b.2 - a.2
  let len2 := dx ^ 2 + dy ^ 2
  if len2 = 0 then sqDistQ p a
  else
    let r := ((p.1 - a.1) * dx + (p.2 - a.2) * dy) / len2
    if r ≤ 0 then sqDistQ p a
    else if 1 ≤ r then sqDistQ p b
    else ((a.2 - p.2) * dx - (a.1 - p.1) * dy) ^ 2 / len2

/-- Modelled from the spec: one step of the Douglas-Peucker farthest-point
scan; state is `(best index, next index, best value)`. -/
def dpStep (a b : Pt) (st : ℕ × ℕ × ℚ) (p : Pt) : ℕ × ℕ × ℚ :=
  if st.2.2 < sqSegDist p a b then (st.2.1, st.2.1 + 1, sqSegDist p a b)
  else (st.1, st.2.1 + 1, st.2.2)

/-- Modelled from the spec: the index (into `mid`, first occurrence) and
value of the maximal point-to-chord squared distance, starting from `-1`
as GEOS does. -/
def dpMax (a b : Pt) (mid : List Pt) : ℕ × ℚ :=
  let st := mid.foldl (dpStep a b) ((0 : ℕ), (0 : ℕ), (-1 : ℚ))
  (st.1, st.2.2)

/-- Modelled from the spec: the recursive Douglas-Peucker section
simplifier, "polyline simplification algorithm that recursively drops
points within a perpendicular distance tolerance of a chord"
(fuel-indexed; the fuel `pts.length` always suffices because each
recursive call strictly shrinks the section). -/
def dpRun (tol2 : ℚ) : ℕ → List Pt → List Pt
  | 0, pts => pts
  | fuel + 1, pts =>
    match pts with
    | [] => []
    | [a] => [a]
    | [a, b] => [a, b]
    | a :: c :: r :: rest =>
      let b := (c :: r :: rest).getLast (List.cons_ne_nil c (r :: rest))
      let km := dpMax a b ((c :: r :: rest).dropLast)
      if km.2 ≤ tol2 then [a, b]
      else
        dpRun tol2 fuel ((a :: c :: r :: rest).take (km.1 + 2)) ++
          (dpRun tol2 fuel ((a :: c :: r :: rest).drop (km.1 + 1))).tail

/-- `simplify_path` from `src/utils/graph_utils.py`: paths with fewer than
3 points are returned unchanged, otherwise Douglas-Peucker runs with the
squared tolerance. -/
def simplify_path (path : List Pt) (tol : ℚ) : List Pt :=
  if path.length < 3 then path else dpRun (tol * tol) path.length path

/- ### Helper list lemmas -/

theorem getLast?_cons_ne {α : Type} (x : α) (t : List α) (h : t ≠ []) :
    (x :: t).getLast? = t.getLast? := by
  cases t with
  | nil => exact absurd rfl h
  | cons y t' => exact List.getLast?_cons_cons

theorem getLast?_drop_lt {α : Type} :
    ∀ (l : List α) (n : ℕ), n < l.length → (l.drop n).getLast? = l.getLast? := by
  intro l
  induction l with
  | nil => intro n h; simp at h
  | cons x t ih =>
    intro n h
    cases n with
    | zero => rfl
    | succ k =>
      have hk : k < t.length := by simpa using h
      have ht : t ≠ [] := by
        intro h0
        rw [h0] at hk
        simp at hk
      rw [List.drop_succ_cons, ih k hk, getLast?_cons_ne x t ht]

theorem tail_getLast?_of_two {α : Type} (l : List α) (h : 2 ≤ l.length) :
    l.tail.getLast? = l.getLast? := by
  cases l with
  | nil => simp at h
  | cons x t =>
    cases t with
    | nil => simp at h
    | cons y t' =>
      show (y :: t').getLast? = (x :: y :: t').getLast?
      rw [List.getLast?_cons_cons]

theorem sublist_tail_my {α : Type} {s l : List α} (h : s.Sublist l) :
    s.tail.Sublist l.tail := by
  induction h with
  | slnil => exact List.Sublist.refl _
  | cons a h ih =>
    exact List.Sublist.trans (List.tail_sublist _) h
  | cons₂ a h ih =>
    exact h

/- ### `dpMax` returns an in-range index -/

theorem sqSegDist_nonneg (p a b : Pt) : 0 ≤ sqSegDist p a b := by
  simp only [sqSegDist, sqDistQ]
  split
  · positivity
  · next hlen =>
    have hpos : 0 < (b.1 - a.1) ^ 2 + (b.2 - a.2) ^ 2 := by
      rcases lt_or_eq_of_le (by positivity :
        (0 : ℚ) ≤ (b.1 - a.1) ^ 2 + (b.2 - a.2) ^ 2) with h | h
      · exact h
      · exact absurd h.symm hlen
    split
    · positivity
    · split
      · positivity
      · positivity

theorem dpStep_lt (a b p : Pt) {st : ℕ × ℕ × ℚ} (h : st.1 < st.2.1) :
    (dpStep a b st p).1 < (dpStep a b st p).2.1 := by
  unfold dpStep
  split
  · show st.2.1 < st.2.1 + 1
    omega
  · show st.1 < st.2.1 + 1
    omega

theorem dpStep_snd (a b p : Pt) (st : ℕ × ℕ × ℚ) :
    (dpStep a b st p).2.1 = st.2.1 + 1 := by
  unfold dpStep
  split <;> rfl

theorem foldl_dpStep_lt (a b : Pt) :
    ∀ (mid : List Pt) (st : ℕ × ℕ × ℚ), st.1 < st.2.1 →
      (mid.foldl (dpStep a b) st).1 < (mid.foldl (dpStep a b) st).2.1 := by
  intro mid
  induction mid with
  | nil => intro st h; exact h
  | cons p t ih =>
    intro st h
    rw [List.foldl_cons]
    exact ih _ (dpStep_lt a b p h)

theorem foldl_dpStep_snd (a b : Pt) :
    ∀ (mid : List Pt) (st : ℕ × ℕ × ℚ),
      (mid.foldl (dpStep a b) st).2.1 = st.2.1 + mid.length := by
  intro mid
  induction mid with
  | nil => intro st; rfl
  | cons p t ih =>
    intro st
    rw [List.foldl_cons, ih, dpStep_snd]
    simp [List.length_cons]
    omega

theorem dpMax_idx_lt (a b : Pt) (mid : List Pt) (h : mid ≠ []) :
    (dpMax a b mid).1 < mid.length := by
  cases mid with
  | nil => exact absurd rfl h
  | cons p t =>
    unfold dpMax
    rw [List.foldl_cons]
    have h0 : dpStep a b (0, 0, -1) p = (0, 1, sqSegDist p a b) := by
      unfold dpStep
      rw [if_pos (lt_of_lt_of_le (by norm_num) (sqSegDist_nonneg p a b))]
    rw [h0]
    show (t.foldl (dpStep a b) (0, 1, sqSegDist p a b)).1 < (p :: t).length
    have h1 := foldl_dpStep_lt a b t (0, 1, sqSegDist p a b) (by norm_num)
    have h2 := foldl_dpStep_snd a b t (0, 1, sqSegDist p a b)
    have h3 : ((0 : ℕ), (1 : ℕ), sqSegDist p a b).2.1 = 1 := rfl
    rw [h2, h3] at h1
    simp only [List.length_cons]
    omega

theorem dpRun_cons3 (tol2 : ℚ) (f : ℕ) (a c r : Pt) (rest : List Pt) :
    dpRun tol2 (f + 1) (a :: c :: r :: rest) =
      (if (dpMax a ((c :: r :: rest).getLast (List.cons_ne_nil c (r :: rest)))
            ((c :: r :: rest).dropLast)).2 ≤ tol2 then
        [a, (c :: r :: rest).getLast (List.cons_ne_nil c (r :: rest))]
      else
        dpRun tol2 f ((a :: c :: r :: rest).take
            ((dpMax a ((c :: r :: rest).getLast (List.cons_ne_nil c (r :: rest)))
              ((c :: r :: rest).dropLast)).1 + 2)) ++
          (dpRun tol2 f ((a :: c :: r :: rest).drop
            ((dpMax a ((c :: r :: rest).getLast (List.cons_ne_nil c (r :: rest)))
              ((c :: r :: rest).dropLast)).1 + 1))).tail) := rfl

theorem dpRun_props (tol2 : ℚ) :
    ∀ (fuel : ℕ) (pts : List Pt), 2 ≤ pts.length →
      2 ≤ (dpRun tol2 fuel pts).length ∧
      (dpRun tol2 fuel pts).head? = pts.head? ∧
      (dpRun tol2 fuel pts).getLast? = pts.getLast? := by
  intro fuel
  induction fuel with
  | zero => intro pts h; exact ⟨h, rfl, rfl⟩
  | succ f ih =>
    intro pts h
    cases pts with
    | nil => simp at h
    | cons a t =>
      cases t with
      | nil => simp at h
      | cons c t' =>
        cases t' with
        | nil =>
          have e : dpRun tol2 (f + 1) [a, c] = [a, c] := rfl
          rw [e]
          exact ⟨by simp, rfl, rfl⟩
        | cons r rest =>
          rw [dpRun_cons3]
          have hmidne : (c :: r :: rest).dropLast ≠ [] := by
            have hlen := List.length_dropLast (c :: r :: rest)
            intro h0
            rw [h0] at hlen
            simp at hlen
          have hk := dpMax_idx_lt a
            ((c :: r :: rest).getLast (List.cons_ne_nil c (r :: rest)))
            ((c :: r :: rest).dropLast) hmidne
          have hklen : ((c :: r :: rest).dropLast).length = rest.length + 1 := by
            rw [List.length_dropLast]
            simp
          rw [hklen] at hk
          split
          · refine ⟨by simp, rfl, ?_⟩
            rw [List.getLast?_cons_cons, List.getLast?_singleton,
              getLast?_cons_ne a _ (List.cons_ne_nil c (r :: rest)),
              List.getLast?_eq_getLast _ (List.cons_ne_nil c (r :: rest))]
          · have hlt : ((a :: c :: r :: rest).take
                ((dpMax a ((c :: r :: rest).getLast (List.cons_ne_nil c (r :: rest)))
                  ((c :: r :: rest).dropLast)).1 + 2)).length =
                (dpMax a ((c :: r :: rest).getLast (List.cons_ne_nil c (r :: rest)))
                  ((c :: r :: rest).dropLast)).1 + 2 := by
              rw [List.length_take]
              simp only [List.length_cons]
              omega
            have hld : ((a :: c :: r :: rest).drop
                ((dpMax a ((c :: r :: rest).getLast (List.cons_ne_nil c (r :: rest)))
                  ((c :: r :: rest).dropLast)).1 + 1)).length =
                rest.length + 2 -
                (dpMax a ((c :: r :: rest).getLast (List.cons_ne_nil c (r :: rest)))
                  ((c :: r :: rest).dropLast)).1 := by
              rw [List.length_drop]
              simp only [List.length_cons]
              omega
            obtain ⟨hl1, hh1, hg1⟩ := ih _ (by rw [hlt]; omega)
            obtain ⟨hl2, hh2, hg2⟩ := ih _ (by rw [hld]; omega)
            refine ⟨?_, ?_, ?_⟩
            · rw [List.length_append, List.length_tail]
              omega
            · rw [List.head?_append]
              have hne1 : dpRun tol2 f ((a :: c :: r :: rest).take
                  ((dpMax a ((c :: r :: rest).getLast (List.cons_ne_nil c (r :: rest)))
                    ((c :: r :: rest).dropLast)).1 + 2)) ≠ [] := by
                intro h0
                rw [h0] at hl1
                simp at hl1
              rw [hh1]
              rw [show ((dpMax a ((c :: r :: rest).getLast
                  (List.cons_ne_nil c (r :: rest)))
                  ((c :: r :: rest).dropLast)).1 + 2) =
                ((dpMax a ((c :: r :: rest).getLast (List.cons_ne_nil c (r :: rest)))
                  ((c :: r :: rest).dropLast)).1 + 1) + 1 from by omega,
                List.take_succ_cons]
              rfl
            · rw [List.getLast?_append]
              rw [tail_getLast?_of_two _ hl2, hg2,
                getLast?_drop_lt _ _ (by simp only [List.length_cons]; omega)]
              have : (a :: c :: r :: rest).getLast? =
                  some ((a :: c :: r :: rest).getLast (by simp)) :=
                List.getLast?_eq_getLast _ (by simp)
              rw [this]
              rfl

theorem dpRun_sublist (tol2 : ℚ) :
    ∀ (fuel : ℕ) (pts : List Pt), (dpRun tol2 fuel pts).Sublist pts := by
  intro fuel
  induction fuel with
  | zero => intro pts; exact List.Sublist.refl pts
  | succ f ih =>
    intro pts
    cases pts with
    | nil => exact List.Sublist.refl _
    | cons a t =>
      cases t with
      | nil => exact List.Sublist.refl _
      | cons c t' =>
        cases t' with
        | nil => exact List.Sublist.refl _
        | cons r rest =>
          rw [dpRun_cons3]
          split
          · refine List.Sublist.cons₂ a ?_
            rw [List.singleton_sublist]
            exact List.getLast_mem (List.cons_ne_nil c (r :: rest))
          · have h1 := ih ((a :: c :: r :: rest).take
              ((dpMax a ((c :: r :: rest).getLast (List.cons_ne_nil c (r :: rest)))
                ((c :: r :: rest).dropLast)).1 + 2))
            have h2 := sublist_tail_my (ih ((a :: c :: r :: rest).drop
              ((dpMax a ((c :: r :: rest).getLast (List.cons_ne_nil c (r :: rest)))
                ((c :: r :: rest).dropLast)).1 + 1)))
            have h3 := List.Sublist.append h1 h2
            rw [List.tail_drop] at h3
            rw [show (dpMax a ((c :: r :: rest).getLast
                (List.cons_ne_nil c (r :: rest)))
                ((c :: r :: rest).dropLast)).1 + 1 + 1 =
              (dpMax a ((c :: r :: rest).getLast (List.cons_ne_nil c (r :: rest)))
                ((c :: r :: rest).dropLast)).1 + 2 from by omega] at h3
            rw [List.take_append_drop] at h3
            exact h3

theorem simplify_path_ends (path : List Pt) (tol : ℚ) :
    (simplify_path path tol).head? = path.head? ∧
    (simplify_path path tol).getLast? = path.getLast? ∧
    (path.length < 3 → simplify_path path tol = path) := by
  unfold simplify_path
  by_cases h : path.length < 3
  · rw [if_pos h]
    exact ⟨rfl, rfl, fun _ => rfl⟩
  · rw [if_neg h]
    obtain ⟨_, hh, hl⟩ := dpRun_props (tol * tol) path.length path (by omega)
    exact ⟨hh, hl, fun hc => absurd hc h⟩

/-- C8: for every input path and tolerance, `simplify_path` returns a
sequence whose first element equals the input's first point and whose last
element equals the input's last point, and every input path with fewer
than 3 points is returned unchanged. -/
theorem simplify_path_endpoints (path : List Pt) (tol : ℚ) :
    (simplify_path path tol).head? = path.head? ∧
    (simplify_path path tol).getLast? = path.getLast? ∧
    (path.length < 3 → simplify_path path tol = path) :=
  simplify_path_ends path tol

/-- Witness: `simplify_path_endpoints` instantiated on a concrete
two-point path, which is returned unchanged. -/
theorem simplify_path_endpoints_witness :
    simplify_path [((0 : ℚ), (0 : ℚ)), (1, 1)] 2 = [((0 : ℚ), (0 : ℚ)), (1, 1)] :=
  (simplify_path_endpoints [((0 : ℚ), (0 : ℚ)), (1, 1)] 2).2.2 (by decide)

/-- C3 is false as stated: with tolerance 0 a path whose interior point
lies exactly on the chord is NOT returned unchanged — the collinear
interior point is dropped. -/
theorem simplify_path_tol0_counterexample :
    simplify_path [((0 : ℚ), (0 : ℚ)), (0, 1), (0, 2)] 0 ≠
      [((0 : ℚ), (0 : ℚ)), (0, 1), (0, 2)] := by
  with_unfolding_all decide

/-- C3 (amended): `simplify_path` applied with tolerance 0 returns an
ordered subsequence of `P` with the same first and last points, and
returns `P` itself whenever `P` has fewer than 3 points; it does not in
general return `P` unchanged, because interior points at distance exactly
0 from the chord of their section (collinear points) are removed. -/
theorem simplify_path_tol0_spec (path : List Pt) :
    (simplify_path path 0).Sublist path ∧
    (simplify_path path 0).head? = path.head? ∧
    (simplify_path path 0).getLast? = path.getLast? ∧
    (path.length < 3 → simplify_path path 0 = path) := by
  obtain ⟨hh, hl, hsmall⟩ := simplify_path_ends path 0
  refine ⟨?_, hh, hl, hsmall⟩
  unfold simplify_path
  split
  · exact List.Sublist.refl path
  · exact dpRun_sublist (0 * 0) path.length path

/-- Witness: `simplify_path_tol0_spec` instantiated on a concrete
one-point path. -/
theorem simplify_path_tol0_spec_witness :
    simplify_path [((5 : ℚ), (5 : ℚ))] 0 = [((5 : ℚ), (5 : ℚ))] :=
  (simplify_path_tol0_spec [((5 : ℚ), (5 : ℚ))]).2.2.2 (by decide)

/-! ### `reconnect_path` (`src/utils/graph_utils.py`) -/

/-- Python `int()` truncation toward zero, applied to an exact rational
(the `tuple(map(int, path[i]))` coordinate conversion). -/
def truncQ (q : ℚ) : ℤ := q.num.tdiv (q.den : ℤ)

/-- Coordinate-wise truncation of a path point to pixel coordinates. -/
def truncPt (p : Pt) : Node := (truncQ p.1, truncQ p.2)

/-- The graph after one loop iteration of `reconnect_path` on the pair
`(p, q)`: if the edge is absent it is inserted with the Euclidean weight
(`np.sqrt` of the squared distance), otherwise the graph is unchanged. -/
def stepG (G : Graph) (p q : Node) : Graph :=
  if hasEdge G p q then G else addEdge G p q (sqDistZ p q)

/-- The loop of `reconnect_path` over the truncated points `p :: rest`,
carrying the (mutated) graph.  For each consecutive pair, the membership
test `p2 not in G[p1]` raises `KeyError` when `p1` is not a node of the
graph (modelled as `.error .missingNode`); a missing edge is inserted with
the Euclidean weight, and the weight the graph then stores for the pair
is appended to the running total.  Returns the list of squared edge
weights read off the graph (the Python float total is the sum of their
square roots) together with the final graph. -/
def reconnectGo (G : Graph) (p : Node) : List Node → Except PErr (List ℕ × Graph)
  | [] => .ok ([], G)
  | q :: t =>
    if p ∈ G.nodes then
      match reconnectGo (stepG G p q) q t with
      | .error e => .error e
      | .ok (ws, Gf) => .ok (getSqD (stepG G p q) p q :: ws, Gf)
    else .error .missingNode

/-- `reconnect_path` from `src/utils/graph_utils.py`: raises the
`ProcessingError` "Path must have at least 2 points" (`.invalidPath`) when
the path has fewer than 2 points, otherwise walks the consecutive pairs
of integer-truncated points, inserting any missing edge with the Euclidean
weight and summing the stored weights. -/
def reconnect_path (G : Graph) (path : List Pt) : Except PErr (List ℕ × Graph) :=
  if path.length < 2 then .error .invalidPath
  else
    match path with
    | [] => .error .invalidPath
    | p :: rest => reconnectGo G (truncPt p) (rest.map truncPt)

/-- The real-valued total the Python function returns: the sum of the
square roots of the squared edge weights it accumulated. -/
noncomputable def totalLenR (ws : List ℕ) : ℝ :=
  (ws.map (fun s : ℕ => Real.sqrt (s : ℝ))).sum

/-- Straight-line (Euclidean) distance between two exact-rational points. -/
noncomputable def euclidQ (p q : Pt) : ℝ :=
  Real.sqrt (((p.1 - q.1 : ℚ) : ℝ) ^ 2 + ((p.2 - q.2 : ℚ) : ℝ) ^ 2)

/-- The consecutive pairs of a list, in order. -/
def consPairs {α : Type} : List α → List (α × α)
  | [] => []
  | [_] => []
  | a :: b :: t => (a, b) :: consPairs (b :: t)

/-- The only error the loop itself can produce is the `KeyError` on a
missing node; the "fewer than 2 points" error is raised before it. -/
theorem reconnectGo_error : ∀ (rest : List Node) (p : Node) (G : Graph) (e : PErr),
    reconnectGo G p rest = .error e → e = .missingNode := by
  intro rest
  induction rest with
  | nil =>
    intro p G e h
    exact absurd h (by rw [reconnectGo]; exact fun hc => Except.noConfusion hc)
  | cons q t ih =>
    intro p G e h
    rw [reconnectGo] at h
    split at h
    · split at h
      · next e' heq =>
        rw [(Except.error.inj h : e' = e)] at heq
        exact ih q (stepG G p q) e heq
      · exact Except.noConfusion h
    · exact (Except.error.inj h).symm

/-- C9: `reconnect_path` fails with the `InvalidPath` processing error
(`"Path must have at least 2 points"`) exactly when the path it receives
has fewer than 2 points; for such a path no pixel length is produced (the
result is an error, not an `.ok` total). -/
theorem reconnect_path_invalid_iff (G : Graph) (path : List Pt) :
    reconnect_path G path = .error .invalidPath ↔ path.length < 2 := by
  unfold reconnect_path
  by_cases h : path.length < 2
  · rw [if_pos h]
    simpa using h
  · rw [if_neg h]
    cases path with
    | nil => simp at h
    | cons p rest =>
      constructor
      · intro hc
        exact absurd (reconnectGo_error (rest.map truncPt) (truncPt p) G .invalidPath hc)
          (fun hcc => PErr.noConfusion hcc)
      · intro hc
        exact absurd hc h

/-- The edge-list extension one loop iteration of `reconnect_path` makes. -/
def stepExt (G : Graph) (p q : Node) : List (Node × Node × ℕ) :=
  if hasEdge G p q then [] else [(p, q, sqDistZ p q)]

theorem stepG_edges (G : Graph) (p q : Node) :
    (stepG G p q).edges = G.edges ++ stepExt G p q := by
  unfold stepG stepExt
  by_cases h : hasEdge G p q = true
  · rw [if_pos h, if_pos h, List.append_nil]
  · rw [if_neg h, if_neg h]
    rcases addEdge_edges_cases G p q (sqDistZ p q) with ⟨hh, _⟩ | ⟨_, he⟩
    · exact absurd hh h
    · exact he

theorem stepG_hasEdge_self (G : Graph) (p q : Node) :
    hasEdge (stepG G p q) p q = true := by
  unfold stepG
  by_cases h : hasEdge G p q = true
  · rw [if_pos h]
    exact h
  · rw [if_neg h]
    exact hasEdge_addEdge_self G p q (sqDistZ p q)

theorem hasEdge_edges_ext {G1 G2 : Graph} {ext : List (Node × Node × ℕ)}
    (h : G2.edges = G1.edges ++ ext) {a b : Node}
    (hE : hasEdge G1 a b = true) : hasEdge G2 a b = true := by
  unfold hasEdge at hE ⊢
  rw [h, List.any_append, hE, Bool.true_or]

theorem hasEdge_false_ext {G1 G2 : Graph} {ext : List (Node × Node × ℕ)}
    (h : G2.edges = G1.edges ++ ext) {a b : Node}
    (hE : hasEdge G2 a b = false) : hasEdge G1 a b = false := by
  cases hb : hasEdge G1 a b
  · rfl
  · rw [hasEdge_edges_ext h hb] at hE
    exact hE

theorem mem_stepExt {G : Graph} {p q : Node} {e : Node × Node × ℕ}
    (h : e ∈ stepExt G p q) :
    hasEdge G p q = false ∧ e = (p, q, sqDistZ p q) := by
  unfold stepExt at h
  by_cases hh : hasEdge G p q = true
  · rw [if_pos hh] at h
    cases h
  · rw [if_neg hh] at h
    rw [List.mem_singleton] at h
    exact ⟨Bool.eq_false_iff.mpr hh, h⟩

theorem consPairs_cons {α : Type} (a b : α) (t : List α) :
    consPairs (a :: b :: t) = (a, b) :: consPairs (b :: t) := rfl

/-- The loop only appends to the edge list, every appended edge is a
missing consecutive truncated pair with its Euclidean weight, and on
return every consecutive truncated pair has an edge. -/
theorem reconnectGo_mutates : ∀ (rest : List Node) (p : Node) (G : Graph)
    (ws : List ℕ) (Gf : Graph), reconnectGo G p rest = .ok (ws, Gf) →
    (∃ ext, Gf.edges = G.edges ++ ext ∧
      ∀ e ∈ ext, ∃ pr ∈ consPairs (p :: rest),
        hasEdge G pr.1 pr.2 = false ∧ e = (pr.1, pr.2, sqDistZ pr.1 pr.2)) ∧
    ∀ pr ∈ consPairs (p :: rest), hasEdge Gf pr.1 pr.2 = true := by
  intro rest
  induction rest with
  | nil =>
    intro p G ws Gf h
    rw [reconnectGo] at h
    injection h with h'
    injection h' with hw hg
    subst hg
    constructor
    · exact ⟨[], by simp, by simp⟩
    · intro pr hpr
      simp [consPairs] at hpr
  | cons q t ih =>
    intro p G ws Gf h
    rw [reconnectGo] at h
    split at h
    · split at h
      · exact Except.noConfusion h
      · next ws' Gf' heq =>
        injection h with h'
        injection h' with hw hg
        subst hg
        obtain ⟨⟨ext', hGf, hext'⟩, hpairs'⟩ := ih q (stepG G p q) ws' Gf' heq
        refine ⟨⟨stepExt G p q ++ ext', ?_, ?_⟩, ?_⟩
        · rw [hGf, stepG_edges, List.append_assoc]
        · intro e he
          rcases List.mem_append.mp he with he | he
          · obtain ⟨hne, hee⟩ := mem_stepExt he
            exact ⟨(p, q), by rw [consPairs_cons]; exact List.mem_cons_self _ _,
              hne, hee⟩
          · obtain ⟨pr, hpr, hne, hee⟩ := hext' e he
            exact ⟨pr, by rw [consPairs_cons]; exact List.mem_cons_of_mem _ hpr,
              hasEdge_false_ext (stepG_edges G p q) hne, hee⟩
        · intro pr hpr
          rw [consPairs_cons] at hpr
          rcases List.mem_cons.mp hpr with hpr | hpr
          · subst hpr
            exact hasEdge_edges_ext hGf (stepG_hasEdge_self G p q)
          · exact hpairs' pr hpr
    · exact Except.noConfusion h

/-- C10: `reconnect_path` mutates its input graph: the returned graph's
edge list is the input's edge list extended by exactly the synthesized
segments — one new edge, with Euclidean weight, for each consecutive pair
of truncated simplified points that had no edge — after it every
consecutive truncated pair has an edge, and whenever some consecutive
truncated pair had no edge the graph is not left unchanged. -/
theorem reconnect_path_mutates (G Gf : Graph) (path : List Pt) (ws : List ℕ)
    (h : reconnect_path G path = .ok (ws, Gf)) :
    (∃ ext, Gf.edges = G.edges ++ ext ∧
      ∀ e ∈ ext, ∃ pr ∈ consPairs (path.map truncPt),
        hasEdge G pr.1 pr.2 = false ∧ e = (pr.1, pr.2, sqDistZ pr.1 pr.2)) ∧
    (∀ pr ∈ consPairs (path.map truncPt), hasEdge Gf pr.1 pr.2 = true) ∧
    ((∃ pr ∈ consPairs (path.map truncPt), hasEdge G pr.1 pr.2 = false) →
      Gf ≠ G) := by
  unfold reconnect_path at h
  split at h
  · exact Except.noConfusion h
  · cases path with
    | nil => exact Except.noConfusion h
    | cons p rest =>
      obtain ⟨hext, hpairs⟩ :=
        reconnectGo_mutates (rest.map truncPt) (truncPt p) G ws Gf h
      have hmap : (p :: rest).map truncPt = truncPt p :: rest.map truncPt := rfl
      rw [hmap]
      refine ⟨hext, hpairs, ?_⟩
      rintro ⟨pr, hpr, hne⟩ heqG
      have htrue := hpairs pr hpr
      rw [heqG] at htrue
      rw [htrue] at hne
      exact Bool.noConfusion hne

theorem findW_mem {G : Graph} {u v : Node} (hE : hasEdge G u v = true) :
    ∃ e ∈ G.edges, edgeFor u v e = true ∧ findW G u v = some e.2.2 := by
  unfold hasEdge at hE
  rw [List.any_eq_true] at hE
  obtain ⟨e, he, hef⟩ := hE
  have hs : (G.edges.find? (edgeFor u v)).isSome :=
    List.find?_isSome.mpr ⟨e, he, hef⟩
  obtain ⟨e', hfe⟩ := Option.isSome_iff_exists.mp hs
  exact ⟨e', List.mem_of_find?_eq_some hfe, List.find?_some hfe,
    by rw [findW, hfe]; rfl⟩

/-- In a graph all of whose edge weights dominate the squared distance of
their endpoints, the stored weight of any present edge dominates the
squared distance of the queried pair. -/
theorem getSqD_ge_of_sound {G : Graph} {u v : Node}
    (hW : ∀ e ∈ G.edges, sqDistZ e.1 e.2.1 ≤ e.2.2)
    (hE : hasEdge G u v = true) : sqDistZ u v ≤ getSqD G u v := by
  obtain ⟨e, he, hef, hfw⟩ := findW_mem hE
  have hWe := hW e he
  rw [edgeFor, decide_eq_true_eq] at hef
  unfold getSqD
  rw [hfw]
  show sqDistZ u v ≤ e.2.2
  rcases hef with ⟨h1, h2⟩ | ⟨h1, h2⟩
  · rw [← h1, ← h2]
    exact hWe
  · rw [← h2, ← h1, sqDistZ_symm]
    exact hWe

theorem find?_append_none {α : Type} (p : α → Bool) :
    ∀ (l1 : List α), l1.find? p = none →
      ∀ l2 : List α, (l1 ++ l2).find? p = l2.find? p := by
  intro l1
  induction l1 with
  | nil => intro _ l2; rfl
  | cons a t ih =>
    intro h l2
    cases hpa : p a with
    | true =>
      rw [List.find?_cons_of_pos _ hpa] at h
      exact Option.noConfusion h
    | false =>
      rw [List.find?_cons_of_neg _ (by simp [hpa])] at h
      rw [List.cons_append, List.find?_cons_of_neg _ (by simp [hpa])]
      exact ih h l2

theorem getSqD_addEdge_new {G : Graph} {u v : Node}
    (h : hasEdge G u v = false) (sq : ℕ) :
    getSqD (addEdge G u v sq) u v = sq := by
  rcases addEdge_edges_cases G u v sq with ⟨hh, _⟩ | ⟨_, he⟩
  · rw [h] at hh
    exact Bool.noConfusion hh
  · unfold getSqD findW
    rw [he]
    have hnone : G.edges.find? (edgeFor u v) = none := by
      rw [List.find?_eq_none]
      intro e hee hef
      unfold hasEdge at h
      rw [List.any_eq_false] at h
      exact h e hee hef
    rw [find?_append_none _ _ hnone]
    simp [List.find?, edgeFor]

/-- The weight read off after a loop iteration dominates the squared
distance of the truncated pair (it is the Euclidean weight if the edge was
just inserted, and a weight-sound stored value otherwise). -/
theorem getSqD_stepG_ge {G : Graph}
    (hW : ∀ e ∈ G.edges, sqDistZ e.1 e.2.1 ≤ e.2.2) (p q : Node) :
    sqDistZ p q ≤ getSqD (stepG G p q) p q := by
  unfold stepG
  by_cases h : hasEdge G p q = true
  · rw [if_pos h]
    exact getSqD_ge_of_sound hW h
  · rw [if_neg h]
    rw [getSqD_addEdge_new (Bool.eq_false_iff.mpr h)]

/-- One loop iteration preserves weight-soundness. -/
theorem stepG_sound {G : Graph}
    (hW : ∀ e ∈ G.edges, sqDistZ e.1 e.2.1 ≤ e.2.2) (p q : Node) :
    ∀ e ∈ (stepG G p q).edges, sqDistZ e.1 e.2.1 ≤ e.2.2 := by
  intro e he
  rw [stepG_edges] at he
  rcases List.mem_append.mp he with he | he
  · exact hW e he
  · obtain ⟨_, hee⟩ := mem_stepExt he
    subst hee
    exact le_refl _

/-- Integer pixel coordinates viewed as a complex number (for the metric
space structure of the plane). -/
noncomputable def cNode (v : Node) : ℂ := ⟨(v.1 : ℝ), (v.2 : ℝ)⟩

theorem euclidZ_eq_dist (u v : Node) : euclidZ u v = dist (cNode u) (cNode v) := by
  rw [Complex.dist_eq, Complex.abs_apply, Complex.normSq_apply]
  unfold euclidZ cNode
  congr 1
  simp only [Complex.sub_re, Complex.sub_im]
  push_cast
  ring

theorem euclidZ_triangle (p q r : Node) :
    euclidZ p r ≤ euclidZ p q + euclidZ q r := by
  rw [euclidZ_eq_dist, euclidZ_eq_dist, euclidZ_eq_dist]
  exact dist_triangle _ _ _

theorem euclidZ_self (p : Node) : euclidZ p p = 0 := by
  unfold euclidZ
  simp

/-- The total the loop accumulates dominates the straight-line distance
from the first truncated point to the last. -/
theorem reconnectGo_len : ∀ (rest : List Node) (p : Node) (G : Graph)
    (ws : List ℕ) (Gf : Graph),
    (∀ e ∈ G.edges, sqDistZ e.1 e.2.1 ≤ e.2.2) →
    reconnectGo G p rest = .ok (ws, Gf) →
    euclidZ p ((p :: rest).getLast (List.cons_ne_nil p rest)) ≤ totalLenR ws := by
  intro rest
  induction rest with
  | nil =>
    intro p G ws Gf hW h
    rw [reconnectGo] at h
    injection h with h'
    injection h' with hw hg
    subst hw
    rw [List.getLast_singleton, euclidZ_self]
    unfold totalLenR
    simp
  | cons q t ih =>
    intro p G ws Gf hW h
    rw [reconnectGo] at h
    split at h
    · split at h
      · exact Except.noConfusion h
      · next ws' Gf' heq =>
        injection h with h'
        injection h' with hw hg
        subst hw
        have hIH := ih q (stepG G p q) ws' Gf' (stepG_sound hW p q) heq
        have hstep : euclidZ p q ≤ Real.sqrt (getSqD (stepG G p q) p q) := by
          rw [← sqrt_sqDistZ]
          exact Real.sqrt_le_sqrt (by exact_mod_cast getSqD_stepG_ge hW p q)
        rw [List.getLast_cons (List.cons_ne_nil q t)]
        have htri := euclidZ_triangle p q ((q :: t).getLast (List.cons_ne_nil q t))
        have hsum : totalLenR (getSqD (stepG G p q) p q :: ws') =
            Real.sqrt (getSqD (stepG G p q) p q) + totalLenR ws' := by
          unfold totalLenR
          rw [List.map_cons, List.sum_cons]
        rw [hsum]
        linarith
    · exact Except.noConfusion h

/-- Concrete 1×1 all-on mask: its skeleton graph has the single node
`(0, 0)` and no edges. -/
def mW7 : Mask := ⟨1, 1, fun _ _ => true⟩

def GW7 : Graph := (build_graph_from_skeleton mW7).toOption.getD ⟨[], []⟩

/-- C7 is false as stated: the loop truncates the float coordinates with
`int()` before looking up or inserting edges, so a path whose distinct
endpoints truncate to the same pixel yields total length 0, strictly below
the straight-line distance between the original first and last points. -/
theorem reconnect_path_not_ge_straight_line :
    ∃ ws Gf, reconnect_path GW7 [((0 : ℚ), (0 : ℚ)), (9/10, 9/10)] = .ok (ws, Gf) ∧
      totalLenR ws < euclidQ ((0 : ℚ), (0 : ℚ)) (9/10, 9/10) := by
  refine ⟨[0], ⟨[(0, 0)], [((0, 0), (0, 0), 0)]⟩, by with_unfolding_all rfl, ?_⟩
  have h0 : totalLenR [0] = 0 := by
    unfold totalLenR
    simp
  rw [h0]
  unfold euclidQ
  apply Real.sqrt_pos.mpr
  push_cast
  norm_num

/-- C7 (amended): for every weight-sound graph (every stored edge weight at
least the Euclidean distance of its endpoints, as in every graph the
program builds) and every path on which `reconnect_path` succeeds, the
returned total is at least the straight-line distance between the
*truncated* first and last points of the path. -/
theorem reconnect_path_ge_straight_line (G Gf : Graph) (path : List Pt)
    (ws : List ℕ) (a b : Pt)
    (hW : ∀ e ∈ G.edges, sqDistZ e.1 e.2.1 ≤ e.2.2)
    (h : reconnect_path G path = .ok (ws, Gf))
    (ha : path.head? = some a) (hb : path.getLast? = some b) :
    euclidZ (truncPt a) (truncPt b) ≤ totalLenR ws := by
  unfold reconnect_path at h
  split at h
  · exact Except.noConfusion h
  · cases path with
    | nil => exact Except.noConfusion h
    | cons p rest =>
      have hap : p = a := Option.some.inj ha
      have hlen := reconnectGo_len (rest.map truncPt) (truncPt p) G ws Gf hW h
      have h1 : ((p :: rest).map truncPt).getLast? = some (truncPt b) := by
        rw [List.getLast?_map, hb]
        rfl
      have h2 := List.getLast?_eq_getLast ((p :: rest).map truncPt) (by simp)
      have h3 : ((p :: rest).map truncPt).getLast (by simp) = truncPt b :=
        Option.some.inj (h2.symm.trans h1)
      have h4 : (truncPt p :: rest.map truncPt).getLast
          (List.cons_ne_nil (truncPt p) (rest.map truncPt)) = truncPt b := h3
      rw [h4] at hlen
      rw [← hap]
      exact hlen

/-- The graph `reconnect_path` returns in the concrete run used to
instantiate `reconnect_path_ge_straight_line`. -/
def GX7 : Graph :=
  ⟨[(0, 0), (0, 1), (0, 2)],
   [((0, 0), (0, 1), 1), ((0, 1), (0, 2), 1), ((0, 0), (0, 2), 4)]⟩

/-- Witness: `reconnect_path_ge_straight_line` instantiated on the 1×3
skeleton graph and the two-point path from `(0,0)` to `(0,2)`. -/
theorem reconnect_path_ge_straight_line_witness :
    euclidZ (truncPt ((0 : ℚ), (0 : ℚ))) (truncPt ((0 : ℚ), (2 : ℚ)))
      ≤ totalLenR [4] :=
  reconnect_path_ge_straight_line GW4 GX7
    [((0 : ℚ), (0 : ℚ)), ((0 : ℚ), (2 : ℚ))] [4]
    ((0 : ℚ), (0 : ℚ)) ((0 : ℚ), (2 : ℚ))
    (by with_unfolding_all decide) (by with_unfolding_all rfl) rfl rfl

/-- The graph `reconnect_path` returns in the concrete run used to
instantiate `reconnect_path_mutates`. -/
def GX10 : Graph :=
  ⟨[(0, 0), (0, 2), (0, 3)], [((0, 2), (0, 3), 1), ((0, 0), (0, 2), 4)]⟩

/-- Witness: `reconnect_path_mutates` instantiated on the three-node
skeleton graph `GW2` and the two-point path from `(0,0)` to `(0,2)`, whose
single consecutive truncated pair has no edge, so the returned graph gains
that edge and differs from the input graph. -/
theorem reconnect_path_mutates_witness :
    (∃ ext, GX10.edges = GW2.edges ++ ext ∧
      ∀ e ∈ ext, ∃ pr ∈ consPairs
          ([((0 : ℚ), (0 : ℚ)), ((0 : ℚ), (2 : ℚ))].map truncPt),
        hasEdge GW2 pr.1 pr.2 = false ∧ e = (pr.1, pr.2, sqDistZ pr.1 pr.2)) ∧
    (∀ pr ∈ consPairs ([((0 : ℚ), (0 : ℚ)), ((0 : ℚ), (2 : ℚ))].map truncPt),
      hasEdge GX10 pr.1 pr.2 = true) ∧
    ((∃ pr ∈ consPairs ([((0 : ℚ), (0 : ℚ)), ((0 : ℚ), (2 : ℚ))].map truncPt),
      hasEdge GW2 pr.1 pr.2 = false) → GX10 ≠ GW2) :=
  reconnect_path_mutates GW2 GX10
    [((0 : ℚ), (0 : ℚ)), ((0 : ℚ), (2 : ℚ))] [4] (by with_unfolding_all rfl)

/-! ### Row grouping (`detect_and_group_contours`,
`src/analysis/sprout_detector.py`) -/

/-- A surviving contour item: its centroid coordinates `(cx, cy)` (the
contour array itself plays no role in the grouping decision). -/
structure CItem where
  cx : ℤ
  cy : ℤ
deriving DecidableEq, Repr

/-- The membership test of the row loop:
`abs(row_cy - cy) < row_tolerance` where `row_cy` is the centroid y of the
row's first member `row[0]` (its reference item).  Rows are never empty
when the loop runs. -/
def rowFits (tol : ℤ) (cy : ℤ) (row : List CItem) : Bool :=
  match row with
  | [] => false
  | r :: _ => decide (|r.cy - cy| < tol)

/-- The inner `for row in rows: ... break` / `if not added:
rows.append([contour_data])` loop body for one item: append the item to
the first row that fits, scanning rows in creation order, otherwise start
a new row at the end. -/
def addToRows (tol : ℤ) (it : CItem) : List (List CItem) → List (List CItem)
  | [] => [[it]]
  | r :: rs =>
    if rowFits tol it.cy r then (r ++ [it]) :: rs
    else r :: addToRows tol it rs

/-- The full grouping pass of `detect_and_group_contours` over the
(already y-sorted) surviving items, starting from no rows. -/
def groupRows (tol : ℤ) (items : List CItem) : List (List CItem) :=
  items.foldl (fun rows it => addToRows tol it rows) []

theorem addToRows_hit (tol : ℤ) (it : CItem) :
    ∀ (rows : List (List CItem)) (i : ℕ) (hi : i < rows.length),
      rowFits tol it.cy (rows.get ⟨i, hi⟩) = true →
      (∀ (j : ℕ) (hj : j < rows.length), j < i →
        rowFits tol it.cy (rows.get ⟨j, hj⟩) = false) →
      addToRows tol it rows = rows.set i (rows.get ⟨i, hi⟩ ++ [it]) := by
  intro rows
  induction rows with
  | nil => intro i hi; exact absurd hi (by simp)
  | cons r rs ih =>
    intro i hi hfit hprev
    cases i with
    | zero =>
      have hfit' : rowFits tol it.cy r = true := hfit
      rw [addToRows, if_pos hfit']
      rfl
    | succ i' =>
      have h0 : rowFits tol it.cy r = false :=
        hprev 0 (by simp) (Nat.succ_pos i')
      rw [addToRows, if_neg (by rw [h0]; exact Bool.false_ne_true)]
      have hi' : i' < rs.length := Nat.lt_of_succ_lt_succ hi
      rw [ih i' hi' hfit
        (fun j hj hji => hprev (j + 1) (Nat.succ_lt_succ hj) (Nat.succ_lt_succ hji))]
      rfl

theorem addToRows_miss (tol : ℤ) (it : CItem) :
    ∀ (rows : List (List CItem)),
      (∀ (i : ℕ) (hi : i < rows.length),
        rowFits tol it.cy (rows.get ⟨i, hi⟩) = false) →
      addToRows tol it rows = rows ++ [[it]] := by
  intro rows
  induction rows with
  | nil => intro _; rfl
  | cons r rs ih =>
    intro hall
    have h0 : rowFits tol it.cy r = false := hall 0 (by simp)
    rw [addToRows, if_neg (by rw [h0]; exact Bool.false_ne_true)]
    rw [ih (fun i hi => hall (i + 1) (Nat.succ_lt_succ hi))]
    rfl

/-- C6: row grouping is first-fit.  For every row list and item: if some
row fits (its first member's centroid y is within the tolerance of the
item's centroid y) then the item is appended to the first such row, in
row-creation order, and the other rows are untouched; if no row fits, a
new row holding just the item is appended at the end; and the full
grouping pass applies exactly this step to each item in order. -/
theorem detect_and_group_first_fit (tol : ℤ) (it : CItem)
    (rows : List (List CItem)) :
    (∀ i : Fin rows.length, rowFits tol it.cy (rows.get i) = true →
      (∀ j : Fin rows.length, (j : ℕ) < (i : ℕ) →
        rowFits tol it.cy (rows.get j) = false) →
      addToRows tol it rows = rows.set i (rows.get i ++ [it])) ∧
    ((∀ i : Fin rows.length, rowFits tol it.cy (rows.get i) = false) →
      addToRows tol it rows = rows ++ [[it]]) ∧
    (∀ pre : List CItem, groupRows tol (pre ++ [it]) =
      addToRows tol it (groupRows tol pre)) := by
  refine ⟨?_, ?_, ?_⟩
  · intro i hfit hprev
    exact addToRows_hit tol it rows i.1 i.2 hfit
      (fun j hj hji => hprev ⟨j, hj⟩ hji)
  · intro hall
    exact addToRows_miss tol it rows (fun i hi => hall ⟨i, hi⟩)
  · intro pre
    unfold groupRows
    rw [List.foldl_append]
    rfl

/-- Witness: `detect_and_group_first_fit` on two rows with references at
y = 0 and y = 10, tolerance 5, and an item at y = 12: both the first-fit
clause (row 1 fits, row 0 does not) and the step equation hold on these
concrete values. -/
theorem detect_and_group_first_fit_witness :
    addToRows 5 ⟨0, 12⟩ [[⟨0, 0⟩], [⟨0, 10⟩]] =
      [[⟨0, 0⟩], [⟨0, 10⟩, ⟨0, 12⟩]] :=
  (detect_and_group_first_fit 5 ⟨0, 12⟩ [[⟨0, 0⟩], [⟨0, 10⟩]]).1
    ⟨1, by decide⟩ (by decide) (by decide)

end SproutCV
